import Mathlib

/-!
Verification of the expression calculator of the EchoBot repository
(source file: the calculator utility exporting `calculate`).

The TypeScript source is shallowly embedded as follows.

* JavaScript numbers are IEEE-754 binary64 doubles.  They are embedded
  twice over `JSNum := Option ℚ`, where `none` stands for a non-finite
  value (NaN, and in the binary64 model also overflow to infinity):
  once faithfully to binary64 — finite doubles carried as their exact
  rational values, every literal and every operation correctly rounded
  through `roundB64` (the `j64...`/`...64` family, the authority for
  numeric-accuracy claims) — and once as an exact-rational
  idealization with no rounding (the `jadd`/`calculate` family), used
  by the claims about error taxonomy, check ordering and formatting
  structure, whose conclusions do not depend on rounding.  Within the
  100-character limit enforced by `calculate`, overflow to infinity is
  unreachable, and NaN is the only non-finite value either pipeline
  can produce (from `parseFloat` on an all-dots numeral token).
* Strings are `List Char`; `calculateStr` adapts Lean string literals.
* The exception-based control flow of `evaluateExpression` becomes the
  `Except EvalErr` monad, written out as explicit matches.
* The closure-captured mutable cursor becomes explicit list passing: each
  grammar rule takes the remaining characters and returns the value
  together with the characters it did not consume.
* The mutually recursive grammar rules are given a fuel parameter to make
  the recursion structural; `evaluateExpression` supplies a budget that
  provably suffices (each unit of nesting or loop iteration consumes at
  least one character).  Running out of fuel is an error like any other
  internal parse failure and is mapped to `InvalidExpression`.
-/

namespace EchoBot

/-- The three user-visible error kinds.  In the source these are the fixed
message strings `ERROR_INVALID_EXPRESSION`, `ERROR_DIVISION_BY_ZERO` and
`ERROR_TOO_COMPLEX`; the constructors stand for those constants. -/
inductive CalcError where
  | invalidExpression
  | divisionByZero
  | tooComplex
deriving DecidableEq, Repr

/-- The outcome record `{ result: number | null; error: string | null }`
returned by `calculate`. -/
structure Outcome where
  result : Option ℚ
  error : Option CalcError
deriving DecidableEq, Repr

/-- ASCII whitespace, as removed by `expression.replace(/\s+/g, "")`.
The JavaScript class `\s` also matches some Unicode space characters;
those never matter below because every claim is settled on inputs (or a
counterexample input) drawn from ASCII. -/
def isWhitespaceChar (c : Char) : Bool :=
  c = ' ' || c = '\t' || c = '\n' || c = '\r' || c = '\x0b' || c = '\x0c'

/-- Whitespace removal producing the sanitized expression. -/
def sanitize (s : List Char) : List Char :=
  s.filter (fun c => !isWhitespaceChar c)

/-- Membership in the character class `[0-9+\-*/().]`. -/
def allowedChar (c : Char) : Bool :=
  c.isDigit || c = '+' || c = '-' || c = '*' || c = '/' ||
    c = '(' || c = ')' || c = '.'

/-- The test `/^[0-9+\-*\/().]+$/.test(s)`: nonempty and every character
allowed. -/
def charClassOK (s : List Char) : Bool :=
  !s.isEmpty && s.all allowedChar

/-- The pre-check `/\/\s*0/.test(s)`: somewhere in the string, a slash
followed (after optional whitespace) by the digit zero. -/
def hasDivZero : List Char → Bool
  | [] => false
  | '/' :: rest =>
      ((rest.dropWhile isWhitespaceChar).head? == some '0') || hasDivZero rest
  | _ :: rest => hasDivZero rest

/-- A JavaScript number: a finite value (exact rational) or NaN. -/
abbrev JSNum := Option ℚ

/-- JavaScript `+` on numbers, exact-arithmetic idealization (the
binary64-faithful version is `j64add`); NaN absorbs. -/
def jadd : JSNum → JSNum → JSNum
  | some a, some b => some (a + b)
  | _, _ => none

/-- JavaScript binary `-` on numbers, exact-arithmetic idealization
(the binary64-faithful version is `j64sub`); NaN absorbs. -/
def jsub : JSNum → JSNum → JSNum
  | some a, some b => some (a - b)
  | _, _ => none

/-- JavaScript `*` on numbers, exact-arithmetic idealization (the
binary64-faithful version is `j64mul`); NaN absorbs. -/
def jmul : JSNum → JSNum → JSNum
  | some a, some b => some (a * b)
  | _, _ => none

/-- JavaScript `/` on numbers, exact-arithmetic idealization (the
binary64-faithful version is `j64div`); NaN absorbs.  The parser only
divides after checking the divisor differs from literal zero, so the
rational division is never taken at a zero denominator. -/
def jdiv : JSNum → JSNum → JSNum
  | some a, some b => some (a / b)
  | _, _ => none

/-- Value of a digit string read in base ten. -/
def digitsVal (ds : List Char) : ℚ :=
  ds.foldl (fun a c => 10 * a + ((c.toNat - 48 : ℕ) : ℚ)) 0

/-- `parseFloat` restricted to the strings the factor rule can hand it,
which consist only of digits and dots: the longest valid decimal-literal
prefix is read (integer digits, optionally a dot and fraction digits);
`none` (NaN) results when that prefix is empty.  This reading is exact;
ECMA `parseFloat` additionally rounds it to the nearest binary64 value,
which `parseFloatDD64` below does. -/
def parseFloatDD (s : List Char) : JSNum :=
  let ds1 := s.takeWhile Char.isDigit
  match s.dropWhile Char.isDigit with
  | '.' :: r2 =>
      let ds2 := r2.takeWhile Char.isDigit
      if ds1.isEmpty && ds2.isEmpty then none
      else some (digitsVal ds1 + digitsVal ds2 / 10 ^ ds2.length)
  | _ => if ds1.isEmpty then none else some (digitsVal ds1)

/-- Exceptions thrown inside `evaluateExpression`, plus the fuel artifact
of the embedding. -/
inductive EvalErr where
  /-- `throw new Error("Division by zero")` in `parseTerm` -/
  | divisionByZero
  /-- `throw new Error("Missing closing parenthesis")` in `parseFactor` -/
  | missingParen
  /-- `throw new Error("Expected a number")` in `parseFactor` -/
  | expectedNumber
  /-- `throw new Error("Unexpected character")` at the end of `evaluateExpression` -/
  | unexpectedChar
  /-- modelling artifact: the recursion budget ran out -/
  | outOfFuel
deriving DecidableEq, Repr

deriving instance DecidableEq for Except

mutual

/-- `parseExpression`: a term, then the additive loop. -/
def parseExpression : Nat → List Char → Except EvalErr (JSNum × List Char)
  | 0, _ => .error .outOfFuel
  | fuel + 1, s =>
    match parseTerm fuel s with
    | .error e => .error e
    | .ok (v, r) => parseExprLoop fuel v r

/-- The `while` loop of `parseExpression`: while the next character is
`+` or `-`, consume it and fold in the next term. -/
def parseExprLoop : Nat → JSNum → List Char → Except EvalErr (JSNum × List Char)
  | 0, _, _ => .error .outOfFuel
  | fuel + 1, left, s =>
    if s.head? = some '+' then
      match parseTerm fuel s.tail with
      | .error e => .error e
      | .ok (w, r2) => parseExprLoop fuel (jadd left w) r2
    else if s.head? = some '-' then
      match parseTerm fuel s.tail with
      | .error e => .error e
      | .ok (w, r2) => parseExprLoop fuel (jsub left w) r2
    else .ok (left, s)

/-- `parseTerm`: a factor, then the multiplicative loop. -/
def parseTerm : Nat → List Char → Except EvalErr (JSNum × List Char)
  | 0, _ => .error .outOfFuel
  | fuel + 1, s =>
    match parseFactor fuel s with
    | .error e => .error e
    | .ok (v, r) => parseTermLoop fuel v r

/-- The `while` loop of `parseTerm`: while the next character is `*` or
`/`, consume it and fold in the next factor; a divisor equal to literal
zero throws. -/
def parseTermLoop : Nat → JSNum → List Char → Except EvalErr (JSNum × List Char)
  | 0, _, _ => .error .outOfFuel
  | fuel + 1, left, s =>
    if s.head? = some '*' then
      match parseFactor fuel s.tail with
      | .error e => .error e
      | .ok (w, r2) => parseTermLoop fuel (jmul left w) r2
    else if s.head? = some '/' then
      match parseFactor fuel s.tail with
      | .error e => .error e
      | .ok (w, r2) =>
          if w = some 0 then .error .divisionByZero
          else parseTermLoop fuel (jdiv left w) r2
    else .ok (left, s)

/-- `parseFactor`: a parenthesized expression, or a number read by the
greedy digit-and-dot scan handed to `parseFloat`. -/
def parseFactor : Nat → List Char → Except EvalErr (JSNum × List Char)
  | 0, _ => .error .outOfFuel
  | fuel + 1, s =>
    if s.head? = some '(' then
      match parseExpression fuel s.tail with
      | .error e => .error e
      | .ok (v, r2) =>
          if r2.head? = some ')' then .ok (v, r2.tail)
          else .error .missingParen
    else
      let num := s.takeWhile (fun c => c.isDigit || c = '.')
      if num.isEmpty then .error .expectedNumber
      else .ok (parseFloatDD num, s.drop num.length)

end

/-- Recursion budget supplied to the parser.  Along any call path, every
fuel unit beyond a small constant is matched by a consumed character, so
this budget is never exhausted (the completeness lemmas below prove it
for well-formed inputs). -/
def evalFuel (s : List Char) : Nat := 4 * s.length + 8

/-- `evaluateExpression`: parse the whole string; unconsumed trailing
characters throw. -/
def evaluateExpression (s : List Char) : Except EvalErr JSNum :=
  match parseExpression (evalFuel s) s with
  | .error e => .error e
  | .ok (v, r) => if r.isEmpty then .ok v else .error .unexpectedChar

/-- `isFinite(result) ? (Number.isInteger(result) ? result
: parseFloat(result.toFixed(6))) : null`.  `toFixed(6)` rounds to the
nearest multiple of 10⁻⁶, ties toward the larger value, which is
Mathlib `round`; parsing the fixed string back yields exactly that
multiple. -/
def formatResult : JSNum → Option ℚ
  | none => none
  | some q =>
      if q.den = 1 then some q
      else some (((round (q * 1000000) : ℤ) : ℚ) / 1000000)

/-- The rounded value produced by `parseFloat(result.toFixed(6))`. -/
def roundTo6 (q : ℚ) : ℚ := ((round (q * 1000000) : ℤ) : ℚ) / 1000000

/-- The exported `calculate`: sanitize, character-class check, length
guard, textual division-by-zero pre-check, then parse and format, with
every thrown error caught at this boundary and mapped to the invalid
expression error. -/
def calculate (input : List Char) : Outcome :=
  let s := sanitize input
  if !charClassOK s then { result := none, error := some .invalidExpression }
  else if s.length > 100 then { result := none, error := some .tooComplex }
  else if hasDivZero s then { result := none, error := some .divisionByZero }
  else
    match evaluateExpression s with
    | .error _ => { result := none, error := some .invalidExpression }
    | .ok v =>
        let formattedResult := formatResult v
        { result := formattedResult,
          error := if formattedResult = none then some .invalidExpression else none }

/-- `calculate` on a Lean string literal. -/
def calculateStr (s : String) : Outcome := calculate s.data

/-! ## Specification-side semantics

For the refinement claim (mathematically correct evaluation of valid
arithmetic strings) a second, independent semantics is needed, written
from the words of the spec: the grammar

  expression := term (("+" | "-") term)*     (left-associative)
  term       := factor (("*" | "/") factor)* (left-associative)
  factor     := "(" expression ")" | number
  number     := digits, with at most one decimal point

with standard precedence, parentheses overriding it, and exact
rational arithmetic.  `Spec lvl s v` says string `s` derives from the
given grammar level with mathematical value `v`; division requires a
nonzero divisor. -/

/-- A grammar level. -/
inductive Lvl where
  | expr
  | term
  | factor
deriving DecidableEq

/-- A valid numeric literal per the spec number rule: one or more digit
characters and at most one decimal point, valued as a decimal fraction. -/
inductive NumLit : List Char → ℚ → Prop where
  | int (ds : List Char) : ds ≠ [] → (∀ c ∈ ds, c.isDigit = true) →
      NumLit ds (digitsVal ds)
  | dec (ds1 ds2 : List Char) : ds1 ++ ds2 ≠ [] →
      (∀ c ∈ ds1, c.isDigit = true) → (∀ c ∈ ds2, c.isDigit = true) →
      NumLit (ds1 ++ '.' :: ds2) (digitsVal ds1 + digitsVal ds2 / 10 ^ ds2.length)

/-- Derivations of the spec grammar, indexed by level, together with the
mathematically correct value of the derived string: left-associative
`+ - * /` with precedence, parentheses overriding it.  The `div` rule
carries the spec assumption that no divisor evaluates to exactly zero. -/
inductive Spec : Lvl → List Char → ℚ → Prop where
  | eOfT {s v} : Spec .term s v → Spec .expr s v
  | add {s1 v1 s2 v2} : Spec .expr s1 v1 → Spec .term s2 v2 →
      Spec .expr (s1 ++ '+' :: s2) (v1 + v2)
  | sub {s1 v1 s2 v2} : Spec .expr s1 v1 → Spec .term s2 v2 →
      Spec .expr (s1 ++ '-' :: s2) (v1 - v2)
  | tOfF {s v} : Spec .factor s v → Spec .term s v
  | mul {s1 v1 s2 v2} : Spec .term s1 v1 → Spec .factor s2 v2 →
      Spec .term (s1 ++ '*' :: s2) (v1 * v2)
  | div {s1 v1 s2 v2} : Spec .term s1 v1 → Spec .factor s2 v2 → v2 ≠ 0 →
      Spec .term (s1 ++ '/' :: s2) (v1 / v2)
  | num {s v} : NumLit s v → Spec .factor s v
  | paren {s v} : Spec .expr s v → Spec .factor ('(' :: s ++ [')']) v

/-! ## Infrastructure for the parser completeness proof

A left-associative derivation is flattened into a head operand and a
list of (operator, operand string, operand value) tail pairs, matching
the accumulator loops of the parser. -/

/-- One operator-operand pair of a flattened chain. -/
abbrev OpNd := Char × List Char × ℚ

/-- The characters of a flattened chain tail. -/
def opflat : List OpNd → List Char
  | [] => []
  | x :: xs => x.1 :: x.2.1 ++ opflat xs

/-- Folding step of the multiplicative loop. -/
def tstep (a : ℚ) (x : OpNd) : ℚ := if x.1 = '*' then a * x.2.2 else a / x.2.2

/-- Folding step of the additive loop. -/
def estep (a : ℚ) (x : OpNd) : ℚ := if x.1 = '+' then a + x.2.2 else a - x.2.2

/-- The trailing context does not begin with a digit or a dot, so the
greedy number scan of `parseFactor` will not run into it. -/
def noNumStart (s : List Char) : Bool :=
  match s with
  | [] => true
  | c :: _ => !(c.isDigit || c = '.')

/-- The trailing context stops the multiplicative loop. -/
def termStop (s : List Char) : Bool :=
  match s with
  | [] => true
  | c :: _ => c = '+' || c = '-' || c = ')'

/-- The trailing context stops the additive loop. -/
def exprStop (s : List Char) : Bool :=
  match s with
  | [] => true
  | c :: _ => c = ')'

/-- `parseFactor` consumes exactly a derived factor and returns its
value, for any suitable trailing context and sufficient fuel. -/
def FactorOK (s : List Char) (v : ℚ) : Prop :=
  ∀ rest fuel, noNumStart rest = true → 4 * s.length + 2 ≤ fuel →
    parseFactor fuel (s ++ rest) = .ok (some v, rest)

/-- `parseTerm` consumes exactly a derived term and returns its value. -/
def TermOK (s : List Char) (v : ℚ) : Prop :=
  ∀ rest fuel, termStop rest = true → 4 * s.length + 4 ≤ fuel →
    parseTerm fuel (s ++ rest) = .ok (some v, rest)

/-- `parseExpression` consumes exactly a derived expression and returns
its value. -/
def ExprOK (s : List Char) (v : ℚ) : Prop :=
  ∀ rest fuel, exprStop rest = true → 4 * s.length + 6 ≤ fuel →
    parseExpression fuel (s ++ rest) = .ok (some v, rest)

/-! ## The IEEE-754 binary64 model

The pipeline above idealizes JavaScript numbers as exact rationals.
The definitions below embed the same source a second time, faithfully
to IEEE-754 binary64: every numeric literal and every arithmetic
result passes through `roundB64`, rounding to the nearest double
(round to nearest, ties to even, 53-bit significand, subnormals
quantized at 2⁻¹⁰⁷⁴, overflow at 2¹⁰²⁴ collapsed into `none` together
with NaN).  Finite doubles are represented by their exact rational
value. -/

/-- Fuel-driven ⌊log₂ n⌋ for positive naturals (0 on 0); the fuel `n`
itself always suffices since the argument halves each step. -/
def natLog2F : ℕ → ℕ → ℕ
  | 0, _ => 0
  | f + 1, n => if n ≤ 1 then 0 else natLog2F f (n / 2) + 1

/-- 2 to an integer power, as a rational. -/
def pow2 (e : ℤ) : ℚ :=
  if 0 ≤ e then ((2 ^ e.toNat : ℕ) : ℚ) else ((2 ^ (-e).toNat : ℕ) : ℚ)⁻¹

/-- ⌊log₂ q⌋ for a positive rational: the numerator and denominator
logs pin it to two candidates, resolved by one comparison. -/
def floorLog2 (q : ℚ) : ℤ :=
  let a : ℤ := natLog2F q.num.natAbs q.num.natAbs
  let b : ℤ := natLog2F q.den q.den
  if q < pow2 (a - b) then a - b - 1 else a - b

/-- Round to the nearest integer, ties to even. -/
def roundHalfEven (q : ℚ) : ℤ :=
  let f := ⌊q⌋
  let r := q - f
  if r < 1 / 2 then f
  else if 1 / 2 < r then f + 1
  else if f % 2 = 0 then f else f + 1

/-- Round a rational to the nearest IEEE-754 binary64 value (round to
nearest, ties to even), as an exact rational.  The quantum is 2^(e-52)
for 2^e ≤ |q| < 2^(e+1), floored at the subnormal quantum 2⁻¹⁰⁷⁴; a
rounded magnitude reaching 2¹⁰²⁴ overflows to infinity, returned as
`none` (non-finite). -/
def roundB64 (q : ℚ) : JSNum :=
  if q = 0 then some 0
  else
    let e := max (floorLog2 |q| - 52) (-1074)
    let m := roundHalfEven (q / pow2 e)
    if 971 ≤ e ∧ 2 ^ (1024 - e).toNat ≤ m.natAbs then none
    else some ((m : ℚ) * pow2 e)

/-- JavaScript `+` in binary64: the exact sum, correctly rounded. -/
def j64add : JSNum → JSNum → JSNum
  | some a, some b => roundB64 (a + b)
  | _, _ => none

/-- JavaScript binary `-` in binary64: the exact difference, correctly
rounded. -/
def j64sub : JSNum → JSNum → JSNum
  | some a, some b => roundB64 (a - b)
  | _, _ => none

/-- JavaScript `*` in binary64: the exact product, correctly rounded. -/
def j64mul : JSNum → JSNum → JSNum
  | some a, some b => roundB64 (a * b)
  | _, _ => none

/-- JavaScript `/` in binary64: the exact quotient, correctly rounded.
The parser divides only after checking the divisor differs from
literal zero. -/
def j64div : JSNum → JSNum → JSNum
  | some a, some b => roundB64 (a / b)
  | _, _ => none

/-- ECMA `parseFloat` on a digit-and-dot string: the longest valid
decimal-literal prefix, read exactly and rounded to the nearest
binary64; NaN when the prefix is empty. -/
def parseFloatDD64 (s : List Char) : JSNum :=
  match parseFloatDD s with
  | some q => roundB64 q
  | none => none

mutual

/-- `parseExpression`, binary64 arithmetic. -/
def parseExpression64 : Nat → List Char → Except EvalErr (JSNum × List Char)
  | 0, _ => .error .outOfFuel
  | fuel + 1, s =>
    match parseTerm64 fuel s with
    | .error e => .error e
    | .ok (v, r) => parseExprLoop64 fuel v r

/-- The additive loop of `parseExpression`, binary64 arithmetic. -/
def parseExprLoop64 : Nat → JSNum → List Char → Except EvalErr (JSNum × List Char)
  | 0, _, _ => .error .outOfFuel
  | fuel + 1, left, s =>
    if s.head? = some '+' then
      match parseTerm64 fuel s.tail with
      | .error e => .error e
      | .ok (w, r2) => parseExprLoop64 fuel (j64add left w) r2
    else if s.head? = some '-' then
      match parseTerm64 fuel s.tail with
      | .error e => .error e
      | .ok (w, r2) => parseExprLoop64 fuel (j64sub left w) r2
    else .ok (left, s)

/-- `parseTerm`, binary64 arithmetic. -/
def parseTerm64 : Nat → List Char → Except EvalErr (JSNum × List Char)
  | 0, _ => .error .outOfFuel
  | fuel + 1, s =>
    match parseFactor64 fuel s with
    | .error e => .error e
    | .ok (v, r) => parseTermLoop64 fuel v r

/-- The multiplicative loop of `parseTerm`, binary64 arithmetic; a
divisor equal to literal zero throws. -/
def parseTermLoop64 : Nat → JSNum → List Char → Except EvalErr (JSNum × List Char)
  | 0, _, _ => .error .outOfFuel
  | fuel + 1, left, s =>
    if s.head? = some '*' then
      match parseFactor64 fuel s.tail with
      | .error e => .error e
      | .ok (w, r2) => parseTermLoop64 fuel (j64mul left w) r2
    else if s.head? = some '/' then
      match parseFactor64 fuel s.tail with
      | .error e => .error e
      | .ok (w, r2) =>
          if w = some 0 then .error .divisionByZero
          else parseTermLoop64 fuel (j64div left w) r2
    else .ok (left, s)

/-- `parseFactor`, binary64 arithmetic: parenthesized expression, or a
number read by the greedy digit-and-dot scan handed to `parseFloat`. -/
def parseFactor64 : Nat → List Char → Except EvalErr (JSNum × List Char)
  | 0, _ => .error .outOfFuel
  | fuel + 1, s =>
    if s.head? = some '(' then
      match parseExpression64 fuel s.tail with
      | .error e => .error e
      | .ok (v, r2) =>
          if r2.head? = some ')' then .ok (v, r2.tail)
          else .error .missingParen
    else
      let num := s.takeWhile (fun c => c.isDigit || c = '.')
      if num.isEmpty then .error .expectedNumber
      else .ok (parseFloatDD64 num, s.drop num.length)

end

/-- `evaluateExpression`, binary64 arithmetic. -/
def evaluateExpression64 (s : List Char) : Except EvalErr JSNum :=
  match parseExpression64 (evalFuel s) s with
  | .error e => .error e
  | .ok (v, r) => if r.isEmpty then .ok v else .error .unexpectedChar

/-- The result formatter on binary64 values: a non-finite value gives
`none`; an integer double passes through; otherwise `toFixed(6)`
produces the 6-decimal rounding, and `parseFloat` reads it back as the
nearest double. -/
def formatResult64 : JSNum → Option ℚ
  | none => none
  | some q =>
      if q.den = 1 then some q
      else roundB64 (((round (q * 1000000) : ℤ) : ℚ) / 1000000)

/-- The exported `calculate`, binary64 arithmetic: identical checks and
error mapping, with parsing and formatting over doubles. -/
def calculate64 (input : List Char) : Outcome :=
  let s := sanitize input
  if !charClassOK s then { result := none, error := some .invalidExpression }
  else if s.length > 100 then { result := none, error := some .tooComplex }
  else if hasDivZero s then { result := none, error := some .divisionByZero }
  else
    match evaluateExpression64 s with
    | .error _ => { result := none, error := some .invalidExpression }
    | .ok v =>
        let formattedResult := formatResult64 v
        { result := formattedResult,
          error := if formattedResult = none then some .invalidExpression else none }

/-- `calculate64` on a Lean string literal. -/
def calculate64Str (s : String) : Outcome := calculate64 s.data

/-- Derivations of the spec grammar valued under correctly rounded
binary64 arithmetic: every literal and every operation result passes
through `roundB64`.  The side conditions record that each rounded
result is finite and each divisor is a nonzero double. -/
inductive Spec64 : Lvl → List Char → ℚ → Prop where
  | eOfT {s v} : Spec64 .term s v → Spec64 .expr s v
  | add {s1 v1 s2 v2 w} : Spec64 .expr s1 v1 → Spec64 .term s2 v2 →
      roundB64 (v1 + v2) = some w → Spec64 .expr (s1 ++ '+' :: s2) w
  | sub {s1 v1 s2 v2 w} : Spec64 .expr s1 v1 → Spec64 .term s2 v2 →
      roundB64 (v1 - v2) = some w → Spec64 .expr (s1 ++ '-' :: s2) w
  | tOfF {s v} : Spec64 .factor s v → Spec64 .term s v
  | mul {s1 v1 s2 v2 w} : Spec64 .term s1 v1 → Spec64 .factor s2 v2 →
      roundB64 (v1 * v2) = some w → Spec64 .term (s1 ++ '*' :: s2) w
  | div {s1 v1 s2 v2 w} : Spec64 .term s1 v1 → Spec64 .factor s2 v2 → v2 ≠ 0 →
      roundB64 (v1 / v2) = some w → Spec64 .term (s1 ++ '/' :: s2) w
  | num {s v w} : NumLit s v → roundB64 v = some w → Spec64 .factor s w
  | paren {s v} : Spec64 .expr s v → Spec64 .factor ('(' :: s ++ [')']) v

/-- Multiplicative folding step in binary64; `none` on overflow. -/
def tstep64 (a : ℚ) (x : OpNd) : Option ℚ :=
  if x.1 = '*' then roundB64 (a * x.2.2) else roundB64 (a / x.2.2)

/-- Additive folding step in binary64; `none` on overflow. -/
def estep64 (a : ℚ) (x : OpNd) : Option ℚ :=
  if x.1 = '+' then roundB64 (a + x.2.2) else roundB64 (a - x.2.2)

/-- Left fold of a partial step over a chain tail, failing on `none`. -/
def chainFold (step : ℚ → OpNd → Option ℚ) : ℚ → List OpNd → Option ℚ
  | a, [] => some a
  | a, x :: xs =>
    match step a x with
    | none => none
    | some b => chainFold step b xs

/-- `parseFactor64` consumes exactly a derived factor (binary64). -/
def FactorOK64 (s : List Char) (v : ℚ) : Prop :=
  ∀ rest fuel, noNumStart rest = true → 4 * s.length + 2 ≤ fuel →
    parseFactor64 fuel (s ++ rest) = .ok (some v, rest)

/-- `parseTerm64` consumes exactly a derived term (binary64). -/
def TermOK64 (s : List Char) (v : ℚ) : Prop :=
  ∀ rest fuel, termStop rest = true → 4 * s.length + 4 ≤ fuel →
    parseTerm64 fuel (s ++ rest) = .ok (some v, rest)

/-- `parseExpression64` consumes exactly a derived expression
(binary64). -/
def ExprOK64 (s : List Char) (v : ℚ) : Prop :=
  ∀ rest fuel, exprStop rest = true → 4 * s.length + 6 ≤ fuel →
    parseExpression64 fuel (s ++ rest) = .ok (some v, rest)

/-! ## Proofs -/

attribute [local semireducible] Rat.add Rat.mul Rat.sub Rat.inv

theorem takeWhile_append_all {p : Char → Bool} {l1 : List Char} (l2 : List Char)
    (h : ∀ c ∈ l1, p c = true) :
    (l1 ++ l2).takeWhile p = l1 ++ l2.takeWhile p := by
  induction l1 with
  | nil => simp
  | cons a l ih =>
    have ha : p a = true := h a (by simp)
    simp only [List.cons_append, List.takeWhile_cons, ha, if_pos]
    rw [ih (fun c hc => h c (by simp [hc]))]

theorem dropWhile_append_all {p : Char → Bool} {l1 : List Char} (l2 : List Char)
    (h : ∀ c ∈ l1, p c = true) :
    (l1 ++ l2).dropWhile p = l2.dropWhile p := by
  induction l1 with
  | nil => simp
  | cons a l ih =>
    have ha : p a = true := h a (by simp)
    simp only [List.cons_append, List.dropWhile_cons, ha, if_pos]
    exact ih (fun c hc => h c (by simp [hc]))

theorem takeWhile_all {p : Char → Bool} {l : List Char}
    (h : ∀ c ∈ l, p c = true) : l.takeWhile p = l := by
  have := takeWhile_append_all (p := p) [] h
  simpa using this

theorem dropWhile_all {p : Char → Bool} {l : List Char}
    (h : ∀ c ∈ l, p c = true) : l.dropWhile p = [] := by
  have := dropWhile_append_all (p := p) [] h
  simpa using this

/-- A valid numeric literal evaluates under the embedded `parseFloat` to
exactly its decimal value. -/
theorem parseFloatDD_of_numLit {s : List Char} {v : ℚ} (h : NumLit s v) :
    parseFloatDD s = some v := by
  cases h with
  | int ds hne hdig =>
    have ht : s.takeWhile Char.isDigit = s := takeWhile_all hdig
    have hd : s.dropWhile Char.isDigit = [] := dropWhile_all hdig
    have hemp : s.isEmpty = false := by
      cases s with
      | nil => exact absurd rfl hne
      | cons a l => rfl
    simp only [parseFloatDD, ht, hd, hemp]
    rfl
  | dec ds1 ds2 hne h1 h2 =>
    have hdot : Char.isDigit '.' = false := rfl
    have ht : (ds1 ++ '.' :: ds2).takeWhile Char.isDigit = ds1 := by
      rw [takeWhile_append_all _ h1]
      simp [List.takeWhile_cons, hdot]
    have hd : (ds1 ++ '.' :: ds2).dropWhile Char.isDigit = '.' :: ds2 := by
      rw [dropWhile_append_all _ h1]
      simp [List.dropWhile_cons, hdot]
    have ht2 : ds2.takeWhile Char.isDigit = ds2 := takeWhile_all h2
    have hemp : (ds1.isEmpty && ds2.isEmpty) = false := by
      cases ds1 with
      | nil =>
        cases ds2 with
        | nil => exact absurd rfl hne
        | cons a l => rfl
      | cons a l => rfl
    simp only [parseFloatDD, ht, hd, ht2, hemp]
    rfl

theorem allowed_of_digit {c : Char} (h : c.isDigit = true) : allowedChar c = true := by
  simp [allowedChar, h]

theorem chars_append_op {s1 s2 : List Char} {op : Char}
    (h1 : ∀ c ∈ s1, allowedChar c = true) (hop : allowedChar op = true)
    (h2 : ∀ c ∈ s2, allowedChar c = true) :
    ∀ c ∈ s1 ++ op :: s2, allowedChar c = true := by
  intro c hc
  rcases List.mem_append.mp hc with hc | hc
  · exact h1 c hc
  · rcases List.mem_cons.mp hc with rfl | hc
    · exact hop
    · exact h2 c hc

/-- Every string derived from the spec grammar is nonempty and uses only
characters of the allowed class. -/
theorem spec_chars {l : Lvl} {s : List Char} {v : ℚ} (h : Spec l s v) :
    s ≠ [] ∧ ∀ c ∈ s, allowedChar c = true := by
  induction h with
  | eOfT _ ih => exact ih
  | add _ _ ih1 ih2 => exact ⟨by simp, chars_append_op ih1.2 rfl ih2.2⟩
  | sub _ _ ih1 ih2 => exact ⟨by simp, chars_append_op ih1.2 rfl ih2.2⟩
  | tOfF _ ih => exact ih
  | mul _ _ ih1 ih2 => exact ⟨by simp, chars_append_op ih1.2 rfl ih2.2⟩
  | div _ _ _ ih1 ih2 => exact ⟨by simp, chars_append_op ih1.2 rfl ih2.2⟩
  | num hn =>
    cases hn with
    | int ds hne hdig => exact ⟨hne, fun c hc => allowed_of_digit (hdig c hc)⟩
    | dec ds1 ds2 hne h1 h2 =>
      exact ⟨by simp, chars_append_op (fun c hc => allowed_of_digit (h1 c hc)) rfl
        (fun c hc => allowed_of_digit (h2 c hc))⟩
  | paren _ ih =>
    refine ⟨by simp, ?_⟩
    intro c hc
    rcases List.mem_cons.mp hc with rfl | hc
    · rfl
    · rcases List.mem_append.mp hc with hc | hc
      · exact ih.2 c hc
      · rcases List.mem_singleton.mp hc with rfl
        rfl

theorem spec_charClassOK {l : Lvl} {s : List Char} {v : ℚ} (h : Spec l s v) :
    charClassOK s = true := by
  obtain ⟨hne, hall⟩ := spec_chars h
  cases s with
  | nil => exact absurd rfl hne
  | cons a l2 =>
    simp only [charClassOK, List.isEmpty_cons, Bool.not_false, Bool.true_and,
      List.all_eq_true]
    exact fun c hc => hall c hc

theorem opflat_append (xs ys : List OpNd) :
    opflat (xs ++ ys) = opflat xs ++ opflat ys := by
  induction xs with
  | nil => simp [opflat]
  | cons x xs ih => simp [opflat, ih]

theorem opflat_cons_length (x : OpNd) (xs : List OpNd) :
    (opflat (x :: xs)).length = x.2.1.length + (opflat xs).length + 1 := by
  simp [opflat]

theorem opflat_mem_length {x : OpNd} {ops : List OpNd} (h : x ∈ ops) :
    x.2.1.length < (opflat ops).length := by
  induction ops with
  | nil => cases h
  | cons y ys ih =>
    rcases List.mem_cons.mp h with rfl | h
    · rw [opflat_cons_length]
      omega
    · have := ih h
      rw [opflat_cons_length]
      omega

/-- A term derivation flattens to a head factor and a list of
multiplicative operator-operand pairs, its value the left fold. -/
theorem spec_term_flat : ∀ {l : Lvl} {s : List Char} {v : ℚ}, Spec l s v → l = .term →
    ∃ s0 v0 ops, Spec .factor s0 v0 ∧
      (∀ x ∈ ops, Spec .factor x.2.1 x.2.2 ∧ (x.1 = '*' ∨ (x.1 = '/' ∧ x.2.2 ≠ 0))) ∧
      s = s0 ++ opflat ops ∧ v = ops.foldl tstep v0 := by
  intro l s v h
  induction h with
  | eOfT _ _ => exact fun hl => Lvl.noConfusion hl
  | add _ _ _ _ => exact fun hl => Lvl.noConfusion hl
  | sub _ _ _ _ => exact fun hl => Lvl.noConfusion hl
  | num _ => exact fun hl => Lvl.noConfusion hl
  | paren _ _ => exact fun hl => Lvl.noConfusion hl
  | tOfF hf _ => exact fun _ => ⟨_, _, [], hf, by simp, by simp [opflat], by simp⟩
  | mul h1 h2 ih1 ih2 =>
    rename_i s1 v1 s2 v2
    intro _
    obtain ⟨s0, v0, ops, hf0, hall, he, hv⟩ := ih1 rfl
    subst he
    subst hv
    refine ⟨s0, v0, ops ++ [('*', s2, v2)], hf0, ?_, ?_, ?_⟩
    · intro x hx
      rcases List.mem_append.mp hx with hx | hx
      · exact hall x hx
      · rcases List.mem_singleton.mp hx with rfl
        exact ⟨h2, Or.inl rfl⟩
    · rw [opflat_append]
      simp [opflat, List.append_assoc]
    · simp [List.foldl_append, tstep]
  | div h1 h2 hnz ih1 ih2 =>
    rename_i s1 v1 s2 v2
    intro _
    obtain ⟨s0, v0, ops, hf0, hall, he, hv⟩ := ih1 rfl
    subst he
    subst hv
    refine ⟨s0, v0, ops ++ [('/', s2, v2)], hf0, ?_, ?_, ?_⟩
    · intro x hx
      rcases List.mem_append.mp hx with hx | hx
      · exact hall x hx
      · rcases List.mem_singleton.mp hx with rfl
        exact ⟨h2, Or.inr ⟨rfl, hnz⟩⟩
    · rw [opflat_append]
      simp [opflat, List.append_assoc]
    · rw [List.foldl_append]
      simp only [List.foldl_cons, List.foldl_nil, tstep]
      rw [if_neg (by decide)]

/-- An expression derivation flattens to a head term and a list of
additive operator-operand pairs, its value the left fold. -/
theorem spec_expr_flat : ∀ {l : Lvl} {s : List Char} {v : ℚ}, Spec l s v → l = .expr →
    ∃ s0 v0 ops, Spec .term s0 v0 ∧
      (∀ x ∈ ops, Spec .term x.2.1 x.2.2 ∧ (x.1 = '+' ∨ x.1 = '-')) ∧
      s = s0 ++ opflat ops ∧ v = ops.foldl estep v0 := by
  intro l s v h
  induction h with
  | tOfF _ _ => exact fun hl => Lvl.noConfusion hl
  | mul _ _ _ _ => exact fun hl => Lvl.noConfusion hl
  | div _ _ _ _ _ => exact fun hl => Lvl.noConfusion hl
  | num _ => exact fun hl => Lvl.noConfusion hl
  | paren _ _ => exact fun hl => Lvl.noConfusion hl
  | eOfT ht _ => exact fun _ => ⟨_, _, [], ht, by simp, by simp [opflat], by simp⟩
  | add h1 h2 ih1 ih2 =>
    rename_i s1 v1 s2 v2
    intro _
    obtain ⟨s0, v0, ops, ht0, hall, he, hv⟩ := ih1 rfl
    subst he
    subst hv
    refine ⟨s0, v0, ops ++ [('+', s2, v2)], ht0, ?_, ?_, ?_⟩
    · intro x hx
      rcases List.mem_append.mp hx with hx | hx
      · exact hall x hx
      · rcases List.mem_singleton.mp hx with rfl
        exact ⟨h2, Or.inl rfl⟩
    · rw [opflat_append]
      simp [opflat, List.append_assoc]
    · simp [List.foldl_append, estep]
  | sub h1 h2 ih1 ih2 =>
    rename_i s1 v1 s2 v2
    intro _
    obtain ⟨s0, v0, ops, ht0, hall, he, hv⟩ := ih1 rfl
    subst he
    subst hv
    refine ⟨s0, v0, ops ++ [('-', s2, v2)], ht0, ?_, ?_, ?_⟩
    · intro x hx
      rcases List.mem_append.mp hx with hx | hx
      · exact hall x hx
      · rcases List.mem_singleton.mp hx with rfl
        exact ⟨h2, Or.inr rfl⟩
    · rw [opflat_append]
      simp [opflat, List.append_assoc]
    · rw [List.foldl_append]
      simp only [List.foldl_cons, List.foldl_nil, estep]
      rw [if_neg (by decide)]

theorem noNumStart_of_termStop {s : List Char} (h : termStop s = true) :
    noNumStart s = true := by
  cases s with
  | nil => rfl
  | cons c cs =>
    simp only [termStop] at h
    rcases (by simpa using h : (c = '+' ∨ c = '-') ∨ c = ')') with (rfl | rfl) | rfl <;> rfl

theorem termStop_of_exprStop {s : List Char} (h : exprStop s = true) :
    termStop s = true := by
  cases s with
  | nil => rfl
  | cons c cs =>
    simp only [exprStop] at h
    rcases (by simpa using h : c = ')') with rfl
    rfl

/-- A valid numeric literal is consumed exactly by the number branch of
`parseFactor`. -/
theorem factorOK_of_numLit {s : List Char} {v : ℚ} (h : NumLit s v) : FactorOK s v := by
  intro rest fuel hstop hfuel
  have hchars : ∀ c ∈ s, (c.isDigit || c = '.') = true := by
    cases h with
    | int ds hne hdig => exact fun c hc => by simp [hdig c hc]
    | dec ds1 ds2 hne h1 h2 =>
      intro c hc
      rcases List.mem_append.mp hc with hc | hc
      · simp [h1 c hc]
      · rcases List.mem_cons.mp hc with rfl | hc
        · simp
        · simp [h2 c hc]
  have hne : s ≠ [] := by
    cases h with
    | int ds hne hdig => exact hne
    | dec ds1 ds2 hne h1 h2 => simp
  have hpf : parseFloatDD s = some v := parseFloatDD_of_numLit h
  obtain ⟨f, rfl⟩ : ∃ f, fuel = f + 1 := ⟨fuel - 1, by omega⟩
  cases s with
  | nil => exact absurd rfl hne
  | cons c cs =>
    have hc0 : (c.isDigit || c = '.') = true := hchars c (List.mem_cons_self _ _)
    have hcp : ¬(((c :: cs) ++ rest).head? = some '(') := by
      simp only [List.cons_append, List.head?_cons]
      intro hq
      obtain rfl := Option.some.inj hq
      exact absurd hc0 (by decide)
    have htake : ((c :: cs) ++ rest).takeWhile (fun ch => ch.isDigit || ch = '.')
        = c :: cs := by
      rw [takeWhile_append_all _ hchars]
      cases rest with
      | nil => simp
      | cons d ds =>
        have hd : (d.isDigit || d = '.') = false := by
          simpa [noNumStart] using hstop
        simp [List.takeWhile_cons, hd]
    simp only [parseFactor]
    rw [if_neg hcp]
    simp only [htake]
    have hemp : (c :: cs).isEmpty = false := rfl
    rw [hemp]
    simp only [Bool.false_eq_true, if_false]
    rw [List.drop_left, hpf]

/-- Completeness of the multiplicative loop over a flattened chain. -/
theorem termLoop_complete : ∀ (ops : List OpNd) (a : ℚ) (rest : List Char) (fuel : Nat),
    (∀ x ∈ ops, FactorOK x.2.1 x.2.2 ∧ (x.1 = '*' ∨ (x.1 = '/' ∧ x.2.2 ≠ 0))) →
    termStop rest = true → 4 * (opflat ops).length + 2 ≤ fuel →
    parseTermLoop fuel (some a) (opflat ops ++ rest) =
      .ok (some (ops.foldl tstep a), rest) := by
  intro ops
  induction ops with
  | nil =>
    intro a rest fuel _ hstop hfuel
    obtain ⟨f, rfl⟩ : ∃ f, fuel = f + 1 := ⟨fuel - 1, by omega⟩
    simp only [opflat, List.nil_append, List.foldl_nil]
    have h1 : ¬(rest.head? = some '*') := by
      cases rest with
      | nil => simp
      | cons c cs =>
        simp only [termStop] at hstop
        rcases (by simpa using hstop : (c = '+' ∨ c = '-') ∨ c = ')') with (rfl | rfl) | rfl <;>
          simp
    have h2 : ¬(rest.head? = some '/') := by
      cases rest with
      | nil => simp
      | cons c cs =>
        simp only [termStop] at hstop
        rcases (by simpa using hstop : (c = '+' ∨ c = '-') ∨ c = ')') with (rfl | rfl) | rfl <;>
          simp
    simp only [parseTermLoop]
    rw [if_neg h1, if_neg h2]
  | cons x xs ih =>
    obtain ⟨c, s2, v2⟩ := x
    intro a rest fuel hall hstop hfuel
    obtain ⟨f, rfl⟩ : ∃ f, fuel = f + 1 := ⟨fuel - 1, by omega⟩
    have hx := hall ⟨c, s2, v2⟩ (List.mem_cons_self _ _)
    have hxs := fun y hy => hall y (List.mem_cons_of_mem _ hy)
    have hnum : noNumStart (opflat xs ++ rest) = true := by
      cases xs with
      | nil => simpa [opflat] using noNumStart_of_termStop hstop
      | cons y ys =>
        have hy := (hxs y (List.mem_cons_self _ _)).2
        rcases hy with hy | ⟨hy, _⟩ <;>
          simp [opflat, List.cons_append, noNumStart, hy]
    have hlen : (opflat (⟨c, s2, v2⟩ :: xs)).length
        = s2.length + (opflat xs).length + 1 := by
      simpa using opflat_cons_length ⟨c, s2, v2⟩ xs
    rw [hlen] at hfuel
    have hshape : opflat (⟨c, s2, v2⟩ :: xs) ++ rest
        = c :: (s2 ++ (opflat xs ++ rest)) := by
      simp [opflat, List.append_assoc]
    rw [hshape]
    have hfact : parseFactor f (s2 ++ (opflat xs ++ rest))
        = .ok (some v2, opflat xs ++ rest) :=
      (show FactorOK s2 v2 from hx.1) (opflat xs ++ rest) f hnum (by omega)
    rcases hx.2 with hc | ⟨hc, hnz⟩
    · subst hc
      simp only [parseTermLoop, List.head?_cons, List.tail_cons, if_true]
      rw [hfact]
      show parseTermLoop f (jmul (some a) (some v2)) (opflat xs ++ rest) = _
      rw [show jmul (some a) (some v2) = some (a * v2) from rfl]
      rw [ih (a * v2) rest f hxs hstop (by omega)]
      simp [List.foldl_cons, tstep]
    · subst hc
      simp only [parseTermLoop, List.head?_cons, List.tail_cons, if_true]
      rw [if_neg (show ¬((some '/' : Option Char) = some '*') by decide)]
      rw [hfact]
      show (if (some v2 : JSNum) = some 0 then Except.error EvalErr.divisionByZero
        else parseTermLoop f (jdiv (some a) (some v2)) (opflat xs ++ rest)) = _
      have hdiv : ¬((some v2 : JSNum) = some 0) := by simp [hnz]
      rw [if_neg hdiv]
      rw [show jdiv (some a) (some v2) = some (a / v2) from rfl]
      rw [ih (a / v2) rest f hxs hstop (by omega)]
      simp only [List.foldl_cons, tstep]
      rw [if_neg (by decide)]

/-- Completeness of the additive loop over a flattened chain. -/
theorem exprLoop_complete : ∀ (ops : List OpNd) (a : ℚ) (rest : List Char) (fuel : Nat),
    (∀ x ∈ ops, TermOK x.2.1 x.2.2 ∧ (x.1 = '+' ∨ x.1 = '-')) →
    exprStop rest = true → 4 * (opflat ops).length + 2 ≤ fuel →
    parseExprLoop fuel (some a) (opflat ops ++ rest) =
      .ok (some (ops.foldl estep a), rest) := by
  intro ops
  induction ops with
  | nil =>
    intro a rest fuel _ hstop hfuel
    obtain ⟨f, rfl⟩ : ∃ f, fuel = f + 1 := ⟨fuel - 1, by omega⟩
    simp only [opflat, List.nil_append, List.foldl_nil]
    have h1 : ¬(rest.head? = some '+') := by
      cases rest with
      | nil => simp
      | cons c cs =>
        simp only [exprStop] at hstop
        rcases (by simpa using hstop : c = ')') with rfl
        simp
    have h2 : ¬(rest.head? = some '-') := by
      cases rest with
      | nil => simp
      | cons c cs =>
        simp only [exprStop] at hstop
        rcases (by simpa using hstop : c = ')') with rfl
        simp
    simp only [parseExprLoop]
    rw [if_neg h1, if_neg h2]
  | cons x xs ih =>
    obtain ⟨c, s2, v2⟩ := x
    intro a rest fuel hall hstop hfuel
    obtain ⟨f, rfl⟩ : ∃ f, fuel = f + 1 := ⟨fuel - 1, by omega⟩
    have hx := hall ⟨c, s2, v2⟩ (List.mem_cons_self _ _)
    have hxs := fun y hy => hall y (List.mem_cons_of_mem _ hy)
    have hstop2 : termStop (opflat xs ++ rest) = true := by
      cases xs with
      | nil => simpa [opflat] using termStop_of_exprStop hstop
      | cons y ys =>
        have hy := (hxs y (List.mem_cons_self _ _)).2
        rcases hy with hy | hy <;>
          simp [opflat, List.cons_append, termStop, hy]
    have hlen : (opflat (⟨c, s2, v2⟩ :: xs)).length
        = s2.length + (opflat xs).length + 1 := by
      simpa using opflat_cons_length ⟨c, s2, v2⟩ xs
    rw [hlen] at hfuel
    have hshape : opflat (⟨c, s2, v2⟩ :: xs) ++ rest
        = c :: (s2 ++ (opflat xs ++ rest)) := by
      simp [opflat, List.append_assoc]
    rw [hshape]
    have hterm : parseTerm f (s2 ++ (opflat xs ++ rest))
        = .ok (some v2, opflat xs ++ rest) :=
      (show TermOK s2 v2 from hx.1) (opflat xs ++ rest) f hstop2 (by omega)
    rcases hx.2 with hc | hc
    · subst hc
      simp only [parseExprLoop, List.head?_cons, List.tail_cons, if_true]
      rw [hterm]
      show parseExprLoop f (jadd (some a) (some v2)) (opflat xs ++ rest) = _
      rw [show jadd (some a) (some v2) = some (a + v2) from rfl]
      rw [ih (a + v2) rest f hxs hstop (by omega)]
      simp [List.foldl_cons, estep]
    · subst hc
      simp only [parseExprLoop, List.head?_cons, List.tail_cons, if_true]
      rw [if_neg (show ¬((some '-' : Option Char) = some '+') by decide)]
      rw [hterm]
      show parseExprLoop f (jsub (some a) (some v2)) (opflat xs ++ rest) = _
      rw [show jsub (some a) (some v2) = some (a - v2) from rfl]
      rw [ih (a - v2) rest f hxs hstop (by omega)]
      simp only [List.foldl_cons, estep]
      rw [if_neg (by decide)]

/-- Completeness of the recursive-descent parser against the spec
grammar: any derived string, placed before a suitable trailing context,
is consumed exactly, yielding its mathematical value.  By strong
induction on the string length. -/
theorem parse_complete (n : ℕ) :
    (∀ s v, s.length ≤ n → Spec .factor s v → FactorOK s v) ∧
    (∀ s v, s.length ≤ n → Spec .term s v → TermOK s v) ∧
    (∀ s v, s.length ≤ n → Spec .expr s v → ExprOK s v) := by
  induction n using Nat.strong_induction_on with
  | _ n ih =>
    have hF : ∀ s v, s.length ≤ n → Spec .factor s v → FactorOK s v := by
      intro s v hlen h
      cases h with
      | num hn => exact factorOK_of_numLit hn
      | paren hin =>
        rename_i s1
        intro rest fuel hstop hfuel
        have hlen2 : ('(' :: s1 ++ [')']).length = s1.length + 2 := by simp
        have hl1 : s1.length + 2 ≤ n := by omega
        have hflen : 10 + 4 * s1.length ≤ fuel := by omega
        obtain ⟨f, rfl⟩ : ∃ f, fuel = f + 1 := ⟨fuel - 1, by omega⟩
        have hshape : (('(' :: s1 ++ [')']) ++ rest) = '(' :: (s1 ++ (')' :: rest)) := by
          simp
        rw [hshape]
        simp only [parseFactor, List.head?_cons, List.tail_cons, if_true]
        have hE := (ih (n - 1) (by omega)).2.2 s1 v (by omega) hin
        have hparse := hE (')' :: rest) f rfl (by omega)
        rw [hparse]
        rfl
    have hT : ∀ s v, s.length ≤ n → Spec .term s v → TermOK s v := by
      intro s v hlen h
      obtain ⟨s0, v0, ops, hf0, hall, he, hv⟩ := spec_term_flat h rfl
      subst he
      subst hv
      intro rest fuel hstop hfuel
      have hlen2 : (s0 ++ opflat ops).length = s0.length + (opflat ops).length := by
        simp
      obtain ⟨f, rfl⟩ : ∃ f, fuel = f + 1 := ⟨fuel - 1, by omega⟩
      have hF0 : FactorOK s0 v0 := hF s0 v0 (by omega) hf0
      have hnum : noNumStart (opflat ops ++ rest) = true := by
        cases ops with
        | nil => simpa [opflat] using noNumStart_of_termStop hstop
        | cons y ys =>
          have hy := (hall y (List.mem_cons_self _ _)).2
          rcases hy with hy | ⟨hy, _⟩ <;>
            simp [opflat, List.cons_append, noNumStart, hy]
      rw [List.append_assoc]
      simp only [parseTerm]
      rw [hF0 (opflat ops ++ rest) f hnum (by omega)]
      show parseTermLoop f (some v0) (opflat ops ++ rest) = _
      exact termLoop_complete ops v0 rest f
        (fun x hx => ⟨hF x.2.1 x.2.2 (by have := opflat_mem_length hx; omega) (hall x hx).1,
          (hall x hx).2⟩)
        hstop (by omega)
    have hE : ∀ s v, s.length ≤ n → Spec .expr s v → ExprOK s v := by
      intro s v hlen h
      obtain ⟨s0, v0, ops, ht0, hall, he, hv⟩ := spec_expr_flat h rfl
      subst he
      subst hv
      intro rest fuel hstop hfuel
      have hlen2 : (s0 ++ opflat ops).length = s0.length + (opflat ops).length := by
        simp
      obtain ⟨f, rfl⟩ : ∃ f, fuel = f + 1 := ⟨fuel - 1, by omega⟩
      have hT0 : TermOK s0 v0 := hT s0 v0 (by omega) ht0
      have hstop2 : termStop (opflat ops ++ rest) = true := by
        cases ops with
        | nil => simpa [opflat] using termStop_of_exprStop hstop
        | cons y ys =>
          have hy := (hall y (List.mem_cons_self _ _)).2
          rcases hy with hy | hy <;>
            simp [opflat, List.cons_append, termStop, hy]
      rw [List.append_assoc]
      simp only [parseExpression]
      rw [hT0 (opflat ops ++ rest) f hstop2 (by omega)]
      show parseExprLoop f (some v0) (opflat ops ++ rest) = _
      exact exprLoop_complete ops v0 rest f
        (fun x hx => ⟨hT x.2.1 x.2.2 (by have := opflat_mem_length hx; omega) (hall x hx).1,
          (hall x hx).2⟩)
        hstop (by omega)
    exact ⟨hF, hT, hE⟩

/-- A string derived from the spec grammar at expression level is
evaluated by `evaluateExpression` to exactly its mathematical value. -/
theorem evaluateExpression_complete {s : List Char} {v : ℚ}
    (h : Spec .expr s v) : evaluateExpression s = .ok (some v) := by
  have hE := (parse_complete s.length).2.2 s v le_rfl h
  have hp := hE [] (evalFuel s) rfl (by simp only [evalFuel]; omega)
  rw [List.append_nil] at hp
  unfold evaluateExpression
  rw [hp]
  rfl

/-- The 6-decimal rounding of the formatter moves a value by at most
10⁻⁶. -/
theorem roundTo6_close (q : ℚ) : |roundTo6 q - q| ≤ 1 / 1000000 := by
  have h := abs_sub_round (q * 1000000)
  have heq : roundTo6 q - q = -((q * 1000000 - (round (q * 1000000) : ℤ)) / 1000000) := by
    unfold roundTo6
    field_simp
    ring
  rw [heq, abs_neg, abs_div, abs_of_pos (show (0 : ℚ) < 1000000 by norm_num)]
  calc |q * 1000000 - ((round (q * 1000000) : ℤ) : ℚ)| / 1000000
      ≤ (1 / 2) / 1000000 := by gcongr
    _ ≤ 1 / 1000000 := by norm_num

/-- `calculate` on input passing the three pre-checks proceeds to parse
and format. -/
theorem calculate_checked {input : List Char}
    (h1 : charClassOK (sanitize input) = true)
    (h2 : (sanitize input).length ≤ 100)
    (h3 : hasDivZero (sanitize input) = false) :
    calculate input =
      match evaluateExpression (sanitize input) with
      | .error _ => ⟨none, some .invalidExpression⟩
      | .ok v => ⟨formatResult v,
          if formatResult v = none then some .invalidExpression else none⟩ := by
  simp only [calculate, h1, h3, Bool.not_true, Bool.false_eq_true, if_false]
  rw [if_neg (by omega)]

/-! ### Completeness of the binary64 parser -/

theorem chainFold_append_some {step : ℚ → OpNd → Option ℚ} :
    ∀ {l1 : List OpNd} {a b : ℚ} (l2 : List OpNd),
    chainFold step a l1 = some b →
    chainFold step a (l1 ++ l2) = chainFold step b l2 := by
  intro l1
  induction l1 with
  | nil =>
    intro a b l2 h
    obtain rfl := Option.some.inj h
    rfl
  | cons x xs ih =>
    intro a b l2 h
    cases hs : step a x with
    | none =>
      rw [chainFold, hs] at h
      exact absurd h (by simp)
    | some c =>
      rw [chainFold, hs] at h
      rw [List.cons_append, chainFold, hs]
      exact ih l2 h

/-- A binary64 term derivation flattens to a head factor and a chain of
multiplicative pairs whose rounded fold reaches the value. -/
theorem spec64_term_flat : ∀ {l : Lvl} {s : List Char} {v : ℚ}, Spec64 l s v → l = .term →
    ∃ s0 v0 ops, Spec64 .factor s0 v0 ∧
      (∀ x ∈ ops, Spec64 .factor x.2.1 x.2.2 ∧ (x.1 = '*' ∨ (x.1 = '/' ∧ x.2.2 ≠ 0))) ∧
      s = s0 ++ opflat ops ∧ chainFold tstep64 v0 ops = some v := by
  intro l s v h
  induction h with
  | eOfT _ _ => exact fun hl => Lvl.noConfusion hl
  | add _ _ _ _ _ => exact fun hl => Lvl.noConfusion hl
  | sub _ _ _ _ _ => exact fun hl => Lvl.noConfusion hl
  | num _ _ => exact fun hl => Lvl.noConfusion hl
  | paren _ _ => exact fun hl => Lvl.noConfusion hl
  | tOfF hf _ => exact fun _ => ⟨_, _, [], hf, by simp, by simp [opflat], rfl⟩
  | mul h1 h2 hr ih1 ih2 =>
    rename_i s1 v1 s2 v2 w
    intro _
    obtain ⟨s0, v0, ops, hf0, hall, he, hfold⟩ := ih1 rfl
    subst he
    refine ⟨s0, v0, ops ++ [('*', s2, v2)], hf0, ?_, ?_, ?_⟩
    · intro x hx
      rcases List.mem_append.mp hx with hx | hx
      · exact hall x hx
      · rcases List.mem_singleton.mp hx with rfl
        exact ⟨h2, Or.inl rfl⟩
    · rw [opflat_append]
      simp [opflat, List.append_assoc]
    · rw [chainFold_append_some _ hfold]
      have hstep : tstep64 v1 ('*', s2, v2) = some w := by
        simp only [tstep64, if_true]
        exact hr
      rw [chainFold, hstep]
      rfl
  | div h1 h2 hnz hr ih1 ih2 =>
    rename_i s1 v1 s2 v2 w
    intro _
    obtain ⟨s0, v0, ops, hf0, hall, he, hfold⟩ := ih1 rfl
    subst he
    refine ⟨s0, v0, ops ++ [('/', s2, v2)], hf0, ?_, ?_, ?_⟩
    · intro x hx
      rcases List.mem_append.mp hx with hx | hx
      · exact hall x hx
      · rcases List.mem_singleton.mp hx with rfl
        exact ⟨h2, Or.inr ⟨rfl, hnz⟩⟩
    · rw [opflat_append]
      simp [opflat, List.append_assoc]
    · rw [chainFold_append_some _ hfold]
      have hstep : tstep64 v1 ('/', s2, v2) = some w := by
        simp only [tstep64]
        rw [if_neg (by decide)]
        exact hr
      rw [chainFold, hstep]
      rfl

/-- A binary64 expression derivation flattens to a head term and a
chain of additive pairs whose rounded fold reaches the value. -/
theorem spec64_expr_flat : ∀ {l : Lvl} {s : List Char} {v : ℚ}, Spec64 l s v → l = .expr →
    ∃ s0 v0 ops, Spec64 .term s0 v0 ∧
      (∀ x ∈ ops, Spec64 .term x.2.1 x.2.2 ∧ (x.1 = '+' ∨ x.1 = '-')) ∧
      s = s0 ++ opflat ops ∧ chainFold estep64 v0 ops = some v := by
  intro l s v h
  induction h with
  | tOfF _ _ => exact fun hl => Lvl.noConfusion hl
  | mul _ _ _ _ _ => exact fun hl => Lvl.noConfusion hl
  | div _ _ _ _ _ _ => exact fun hl => Lvl.noConfusion hl
  | num _ _ => exact fun hl => Lvl.noConfusion hl
  | paren _ _ => exact fun hl => Lvl.noConfusion hl
  | eOfT ht _ => exact fun _ => ⟨_, _, [], ht, by simp, by simp [opflat], rfl⟩
  | add h1 h2 hr ih1 ih2 =>
    rename_i s1 v1 s2 v2 w
    intro _
    obtain ⟨s0, v0, ops, ht0, hall, he, hfold⟩ := ih1 rfl
    subst he
    refine ⟨s0, v0, ops ++ [('+', s2, v2)], ht0, ?_, ?_, ?_⟩
    · intro x hx
      rcases List.mem_append.mp hx with hx | hx
      · exact hall x hx
      · rcases List.mem_singleton.mp hx with rfl
        exact ⟨h2, Or.inl rfl⟩
    · rw [opflat_append]
      simp [opflat, List.append_assoc]
    · rw [chainFold_append_some _ hfold]
      have hstep : estep64 v1 ('+', s2, v2) = some w := by
        simp only [estep64, if_true]
        exact hr
      rw [chainFold, hstep]
      rfl
  | sub h1 h2 hr ih1 ih2 =>
    rename_i s1 v1 s2 v2 w
    intro _
    obtain ⟨s0, v0, ops, ht0, hall, he, hfold⟩ := ih1 rfl
    subst he
    refine ⟨s0, v0, ops ++ [('-', s2, v2)], ht0, ?_, ?_, ?_⟩
    · intro x hx
      rcases List.mem_append.mp hx with hx | hx
      · exact hall x hx
      · rcases List.mem_singleton.mp hx with rfl
        exact ⟨h2, Or.inr rfl⟩
    · rw [opflat_append]
      simp [opflat, List.append_assoc]
    · rw [chainFold_append_some _ hfold]
      have hstep : estep64 v1 ('-', s2, v2) = some w := by
        simp only [estep64]
        rw [if_neg (by decide)]
        exact hr
      rw [chainFold, hstep]
      rfl

/-- A valid numeric literal is consumed exactly by the number branch of
`parseFactor64`, yielding its decimal value rounded to binary64. -/
theorem factorOK64_of_numLit {s : List Char} {v w : ℚ} (h : NumLit s v)
    (hr : roundB64 v = some w) : FactorOK64 s w := by
  intro rest fuel hstop hfuel
  have hchars : ∀ c ∈ s, (c.isDigit || c = '.') = true := by
    cases h with
    | int ds hne hdig => exact fun c hc => by simp [hdig c hc]
    | dec ds1 ds2 hne h1 h2 =>
      intro c hc
      rcases List.mem_append.mp hc with hc | hc
      · simp [h1 c hc]
      · rcases List.mem_cons.mp hc with rfl | hc
        · simp
        · simp [h2 c hc]
  have hne : s ≠ [] := by
    cases h with
    | int ds hne hdig => exact hne
    | dec ds1 ds2 hne h1 h2 => simp
  have hpf : parseFloatDD64 s = some w := by
    simp only [parseFloatDD64, parseFloatDD_of_numLit h]
    exact hr
  obtain ⟨f, rfl⟩ : ∃ f, fuel = f + 1 := ⟨fuel - 1, by omega⟩
  cases s with
  | nil => exact absurd rfl hne
  | cons c cs =>
    have hc0 : (c.isDigit || c = '.') = true := hchars c (List.mem_cons_self _ _)
    have hcp : ¬(((c :: cs) ++ rest).head? = some '(') := by
      simp only [List.cons_append, List.head?_cons]
      intro hq
      obtain rfl := Option.some.inj hq
      exact absurd hc0 (by decide)
    have htake : ((c :: cs) ++ rest).takeWhile (fun ch => ch.isDigit || ch = '.')
        = c :: cs := by
      rw [takeWhile_append_all _ hchars]
      cases rest with
      | nil => simp
      | cons d ds =>
        have hd : (d.isDigit || d = '.') = false := by
          simpa [noNumStart] using hstop
        simp [List.takeWhile_cons, hd]
    simp only [parseFactor64]
    rw [if_neg hcp]
    simp only [htake]
    have hemp : (c :: cs).isEmpty = false := rfl
    rw [hemp]
    simp only [Bool.false_eq_true, if_false]
    rw [List.drop_left, hpf]

/-- Completeness of the binary64 multiplicative loop over a flattened
chain whose rounded fold succeeds. -/
theorem termLoop64_complete : ∀ (ops : List OpNd) (a w : ℚ) (rest : List Char) (fuel : Nat),
    (∀ x ∈ ops, FactorOK64 x.2.1 x.2.2 ∧ (x.1 = '*' ∨ (x.1 = '/' ∧ x.2.2 ≠ 0))) →
    chainFold tstep64 a ops = some w →
    termStop rest = true → 4 * (opflat ops).length + 2 ≤ fuel →
    parseTermLoop64 fuel (some a) (opflat ops ++ rest) = .ok (some w, rest) := by
  intro ops
  induction ops with
  | nil =>
    intro a w rest fuel _ hfold hstop hfuel
    obtain rfl : a = w := Option.some.inj hfold
    obtain ⟨f, rfl⟩ : ∃ f, fuel = f + 1 := ⟨fuel - 1, by omega⟩
    simp only [opflat, List.nil_append]
    have h1 : ¬(rest.head? = some '*') := by
      cases rest with
      | nil => simp
      | cons c cs =>
        simp only [termStop] at hstop
        rcases (by simpa using hstop : (c = '+' ∨ c = '-') ∨ c = ')') with (rfl | rfl) | rfl <;>
          simp
    have h2 : ¬(rest.head? = some '/') := by
      cases rest with
      | nil => simp
      | cons c cs =>
        simp only [termStop] at hstop
        rcases (by simpa using hstop : (c = '+' ∨ c = '-') ∨ c = ')') with (rfl | rfl) | rfl <;>
          simp
    simp only [parseTermLoop64]
    rw [if_neg h1, if_neg h2]
  | cons x xs ih =>
    obtain ⟨c, s2, v2⟩ := x
    intro a w rest fuel hall hfold hstop hfuel
    obtain ⟨f, rfl⟩ : ∃ f, fuel = f + 1 := ⟨fuel - 1, by omega⟩
    have hx := hall ⟨c, s2, v2⟩ (List.mem_cons_self _ _)
    have hxs := fun y hy => hall y (List.mem_cons_of_mem _ hy)
    have hnum : noNumStart (opflat xs ++ rest) = true := by
      cases xs with
      | nil => simpa [opflat] using noNumStart_of_termStop hstop
      | cons y ys =>
        have hy := (hxs y (List.mem_cons_self _ _)).2
        rcases hy with hy | ⟨hy, _⟩ <;>
          simp [opflat, List.cons_append, noNumStart, hy]
    have hlen : (opflat (⟨c, s2, v2⟩ :: xs)).length
        = s2.length + (opflat xs).length + 1 := by
      simpa using opflat_cons_length ⟨c, s2, v2⟩ xs
    rw [hlen] at hfuel
    have hshape : opflat (⟨c, s2, v2⟩ :: xs) ++ rest
        = c :: (s2 ++ (opflat xs ++ rest)) := by
      simp [opflat, List.append_assoc]
    rw [hshape]
    have hfact : parseFactor64 f (s2 ++ (opflat xs ++ rest))
        = .ok (some v2, opflat xs ++ rest) :=
      (show FactorOK64 s2 v2 from hx.1) (opflat xs ++ rest) f hnum (by omega)
    rcases hx.2 with hc | ⟨hc, hnz⟩
    · subst hc
      cases hb : tstep64 a ⟨'*', s2, v2⟩ with
      | none =>
        rw [chainFold, hb] at hfold
        exact absurd hfold (by simp)
      | some b =>
        rw [chainFold, hb] at hfold
        have hround : roundB64 (a * v2) = some b := by
          have := hb
          simp only [tstep64, if_true] at this
          exact this
        simp only [parseTermLoop64, List.head?_cons, List.tail_cons, if_true]
        rw [hfact]
        show parseTermLoop64 f (j64mul (some a) (some v2)) (opflat xs ++ rest) = _
        rw [show j64mul (some a) (some v2) = roundB64 (a * v2) from rfl, hround]
        exact ih b w rest f hxs hfold hstop (by omega)
    · subst hc
      cases hb : tstep64 a ⟨'/', s2, v2⟩ with
      | none =>
        rw [chainFold, hb] at hfold
        exact absurd hfold (by simp)
      | some b =>
        rw [chainFold, hb] at hfold
        have hround : roundB64 (a / v2) = some b := by
          have h0 := hb
          simp only [tstep64] at h0
          rw [if_neg (by decide)] at h0
          exact h0
        simp only [parseTermLoop64, List.head?_cons, List.tail_cons, if_true]
        rw [if_neg (show ¬((some '/' : Option Char) = some '*') by decide)]
        rw [hfact]
        show (if (some v2 : JSNum) = some 0 then Except.error EvalErr.divisionByZero
          else parseTermLoop64 f (j64div (some a) (some v2)) (opflat xs ++ rest)) = _
        rw [if_neg (show ¬((some v2 : JSNum) = some 0) by simp [hnz])]
        rw [show j64div (some a) (some v2) = roundB64 (a / v2) from rfl, hround]
        exact ih b w rest f hxs hfold hstop (by omega)

/-- Completeness of the binary64 additive loop over a flattened chain
whose rounded fold succeeds. -/
theorem exprLoop64_complete : ∀ (ops : List OpNd) (a w : ℚ) (rest : List Char) (fuel : Nat),
    (∀ x ∈ ops, TermOK64 x.2.1 x.2.2 ∧ (x.1 = '+' ∨ x.1 = '-')) →
    chainFold estep64 a ops = some w →
    exprStop rest = true → 4 * (opflat ops).length + 2 ≤ fuel →
    parseExprLoop64 fuel (some a) (opflat ops ++ rest) = .ok (some w, rest) := by
  intro ops
  induction ops with
  | nil =>
    intro a w rest fuel _ hfold hstop hfuel
    obtain rfl : a = w := Option.some.inj hfold
    obtain ⟨f, rfl⟩ : ∃ f, fuel = f + 1 := ⟨fuel - 1, by omega⟩
    simp only [opflat, List.nil_append]
    have h1 : ¬(rest.head? = some '+') := by
      cases rest with
      | nil => simp
      | cons c cs =>
        simp only [exprStop] at hstop
        rcases (by simpa using hstop : c = ')') with rfl
        simp
    have h2 : ¬(rest.head? = some '-') := by
      cases rest with
      | nil => simp
      | cons c cs =>
        simp only [exprStop] at hstop
        rcases (by simpa using hstop : c = ')') with rfl
        simp
    simp only [parseExprLoop64]
    rw [if_neg h1, if_neg h2]
  | cons x xs ih =>
    obtain ⟨c, s2, v2⟩ := x
    intro a w rest fuel hall hfold hstop hfuel
    obtain ⟨f, rfl⟩ : ∃ f, fuel = f + 1 := ⟨fuel - 1, by omega⟩
    have hx := hall ⟨c, s2, v2⟩ (List.mem_cons_self _ _)
    have hxs := fun y hy => hall y (List.mem_cons_of_mem _ hy)
    have hstop2 : termStop (opflat xs ++ rest) = true := by
      cases xs with
      | nil => simpa [opflat] using termStop_of_exprStop hstop
      | cons y ys =>
        have hy := (hxs y (List.mem_cons_self _ _)).2
        rcases hy with hy | hy <;>
          simp [opflat, List.cons_append, termStop, hy]
    have hlen : (opflat (⟨c, s2, v2⟩ :: xs)).length
        = s2.length + (opflat xs).length + 1 := by
      simpa using opflat_cons_length ⟨c, s2, v2⟩ xs
    rw [hlen] at hfuel
    have hshape : opflat (⟨c, s2, v2⟩ :: xs) ++ rest
        = c :: (s2 ++ (opflat xs ++ rest)) := by
      simp [opflat, List.append_assoc]
    rw [hshape]
    have hterm : parseTerm64 f (s2 ++ (opflat xs ++ rest))
        = .ok (some v2, opflat xs ++ rest) :=
      (show TermOK64 s2 v2 from hx.1) (opflat xs ++ rest) f hstop2 (by omega)
    rcases hx.2 with hc | hc
    · subst hc
      cases hb : estep64 a ⟨'+', s2, v2⟩ with
      | none =>
        rw [chainFold, hb] at hfold
        exact absurd hfold (by simp)
      | some b =>
        rw [chainFold, hb] at hfold
        have hround : roundB64 (a + v2) = some b := by
          have h0 := hb
          simp only [estep64, if_true] at h0
          exact h0
        simp only [parseExprLoop64, List.head?_cons, List.tail_cons, if_true]
        rw [hterm]
        show parseExprLoop64 f (j64add (some a) (some v2)) (opflat xs ++ rest) = _
        rw [show j64add (some a) (some v2) = roundB64 (a + v2) from rfl, hround]
        exact ih b w rest f hxs hfold hstop (by omega)
    · subst hc
      cases hb : estep64 a ⟨'-', s2, v2⟩ with
      | none =>
        rw [chainFold, hb] at hfold
        exact absurd hfold (by simp)
      | some b =>
        rw [chainFold, hb] at hfold
        have hround : roundB64 (a - v2) = some b := by
          have h0 := hb
          simp only [estep64] at h0
          rw [if_neg (by decide)] at h0
          exact h0
        simp only [parseExprLoop64, List.head?_cons, List.tail_cons, if_true]
        rw [if_neg (show ¬((some '-' : Option Char) = some '+') by decide)]
        rw [hterm]
        show parseExprLoop64 f (j64sub (some a) (some v2)) (opflat xs ++ rest) = _
        rw [show j64sub (some a) (some v2) = roundB64 (a - v2) from rfl, hround]
        exact ih b w rest f hxs hfold hstop (by omega)

/-- Completeness of the binary64 recursive-descent parser against the
binary64-valued spec grammar. -/
theorem parse64_complete (n : ℕ) :
    (∀ s v, s.length ≤ n → Spec64 .factor s v → FactorOK64 s v) ∧
    (∀ s v, s.length ≤ n → Spec64 .term s v → TermOK64 s v) ∧
    (∀ s v, s.length ≤ n → Spec64 .expr s v → ExprOK64 s v) := by
  induction n using Nat.strong_induction_on with
  | _ n ih =>
    have hF : ∀ s v, s.length ≤ n → Spec64 .factor s v → FactorOK64 s v := by
      intro s v hlen h
      cases h with
      | num hn hr => exact factorOK64_of_numLit hn hr
      | paren hin =>
        rename_i s1
        intro rest fuel hstop hfuel
        have hlen2 : ('(' :: s1 ++ [')']).length = s1.length + 2 := by simp
        have hl1 : s1.length + 2 ≤ n := by omega
        have hflen : 10 + 4 * s1.length ≤ fuel := by omega
        obtain ⟨f, rfl⟩ : ∃ f, fuel = f + 1 := ⟨fuel - 1, by omega⟩
        have hshape : (('(' :: s1 ++ [')']) ++ rest) = '(' :: (s1 ++ (')' :: rest)) := by
          simp
        rw [hshape]
        simp only [parseFactor64, List.head?_cons, List.tail_cons, if_true]
        have hE := (ih (n - 1) (by omega)).2.2 s1 v (by omega) hin
        have hparse := hE (')' :: rest) f rfl (by omega)
        rw [hparse]
        rfl
    have hT : ∀ s v, s.length ≤ n → Spec64 .term s v → TermOK64 s v := by
      intro s v hlen h
      obtain ⟨s0, v0, ops, hf0, hall, he, hfold⟩ := spec64_term_flat h rfl
      subst he
      intro rest fuel hstop hfuel
      have hlen2 : (s0 ++ opflat ops).length = s0.length + (opflat ops).length := by
        simp
      obtain ⟨f, rfl⟩ : ∃ f, fuel = f + 1 := ⟨fuel - 1, by omega⟩
      have hF0 : FactorOK64 s0 v0 := hF s0 v0 (by omega) hf0
      have hnum : noNumStart (opflat ops ++ rest) = true := by
        cases ops with
        | nil => simpa [opflat] using noNumStart_of_termStop hstop
        | cons y ys =>
          have hy := (hall y (List.mem_cons_self _ _)).2
          rcases hy with hy | ⟨hy, _⟩ <;>
            simp [opflat, List.cons_append, noNumStart, hy]
      rw [List.append_assoc]
      simp only [parseTerm64]
      rw [hF0 (opflat ops ++ rest) f hnum (by omega)]
      show parseTermLoop64 f (some v0) (opflat ops ++ rest) = _
      exact termLoop64_complete ops v0 v rest f
        (fun x hx => ⟨hF x.2.1 x.2.2 (by have := opflat_mem_length hx; omega) (hall x hx).1,
          (hall x hx).2⟩)
        hfold hstop (by omega)
    have hE : ∀ s v, s.length ≤ n → Spec64 .expr s v → ExprOK64 s v := by
      intro s v hlen h
      obtain ⟨s0, v0, ops, ht0, hall, he, hfold⟩ := spec64_expr_flat h rfl
      subst he
      intro rest fuel hstop hfuel
      have hlen2 : (s0 ++ opflat ops).length = s0.length + (opflat ops).length := by
        simp
      obtain ⟨f, rfl⟩ : ∃ f, fuel = f + 1 := ⟨fuel - 1, by omega⟩
      have hT0 : TermOK64 s0 v0 := hT s0 v0 (by omega) ht0
      have hstop2 : termStop (opflat ops ++ rest) = true := by
        cases ops with
        | nil => simpa [opflat] using termStop_of_exprStop hstop
        | cons y ys =>
          have hy := (hall y (List.mem_cons_self _ _)).2
          rcases hy with hy | hy <;>
            simp [opflat, List.cons_append, termStop, hy]
      rw [List.append_assoc]
      simp only [parseExpression64]
      rw [hT0 (opflat ops ++ rest) f hstop2 (by omega)]
      show parseExprLoop64 f (some v0) (opflat ops ++ rest) = _
      exact exprLoop64_complete ops v0 v rest f
        (fun x hx => ⟨hT x.2.1 x.2.2 (by have := opflat_mem_length hx; omega) (hall x hx).1,
          (hall x hx).2⟩)
        hfold hstop (by omega)
    exact ⟨hF, hT, hE⟩

/-- A string derived from the binary64-valued spec grammar is evaluated
by `evaluateExpression64` to exactly that binary64 value. -/
theorem evaluateExpression64_complete {s : List Char} {v : ℚ}
    (h : Spec64 .expr s v) : evaluateExpression64 s = .ok (some v) := by
  have hE := (parse64_complete s.length).2.2 s v le_rfl h
  have hp := hE [] (evalFuel s) rfl (by simp only [evalFuel]; omega)
  rw [List.append_nil] at hp
  unfold evaluateExpression64
  rw [hp]
  rfl

/-- `calculate64` on input passing the three pre-checks proceeds to
parse and format. -/
theorem calculate64_checked {input : List Char}
    (h1 : charClassOK (sanitize input) = true)
    (h2 : (sanitize input).length ≤ 100)
    (h3 : hasDivZero (sanitize input) = false) :
    calculate64 input =
      match evaluateExpression64 (sanitize input) with
      | .error _ => ⟨none, some .invalidExpression⟩
      | .ok v => ⟨formatResult64 v,
          if formatResult64 v = none then some .invalidExpression else none⟩ := by
  simp only [calculate64, h1, h3, Bool.not_true, Bool.false_eq_true, if_false]
  rw [if_neg (by omega)]

/-! ## Claim theorems -/

/-- C1 counterexample: the in-scope input
10000000000000001-10000000000000000 (35 characters, only digits and a
minus, no slash-zero pattern, no division) has mathematically correct
value 1, but `parseFloat` rounds 10¹⁶+1 to the nearest binary64 value
10¹⁶, so the program returns 0 — an error of 1, far beyond 10⁻⁶. -/
theorem C1_counterexample :
    Spec .expr ("10000000000000001-10000000000000000".data) 1 ∧
    ("10000000000000001-10000000000000000".data).length ≤ 100 ∧
    hasDivZero ("10000000000000001-10000000000000000".data) = false ∧
    calculate64 ("10000000000000001-10000000000000000".data) = ⟨some 0, none⟩ ∧
    ¬(|(0 : ℚ) - 1| ≤ 1 / 1000000) := by
  refine ⟨?_, by decide, by decide, by decide, by norm_num⟩
  have hs : Spec .expr ("10000000000000001".data ++ '-' :: "10000000000000000".data)
      (digitsVal ("10000000000000001".data) - digitsVal ("10000000000000000".data)) :=
    Spec.sub
      (Spec.eOfT (Spec.tOfF (Spec.num (NumLit.int _ (by decide) (by decide)))))
      (Spec.tOfF (Spec.num (NumLit.int _ (by decide) (by decide))))
  rw [show digitsVal ("10000000000000001".data)
      - digitsVal ("10000000000000000".data) = (1 : ℚ) by decide] at hs
  exact hs

/-- C1 (amended): for every input whose sanitized form derives from the
spec grammar (digits, the operators + - * /, decimal points, matched
parentheses) with mathematical value v, is at most 100 characters
after sanitization, contains no slash-zero pattern, has no divisor
evaluating to exactly zero, and in which no binary64 rounding error
occurs — v also derives under correctly rounded binary64 arithmetic,
and its 6-decimal display rounding re-reads exactly —, `calculate`
returns a numeric result within 10⁻⁶ of v, with left-associative
precedence and parentheses overriding it; in particular 2 + 2 * 2
evaluates to 6 and (2 + 3) * 4 to 20 (all values exactly
representable).  Without the no-rounding condition the program tracks
correctly rounded binary64 arithmetic instead of exact arithmetic. -/
theorem C1_evaluator_correct :
    (∀ (input : List Char) (v : ℚ),
      Spec .expr (sanitize input) v →
      Spec64 .expr (sanitize input) v →
      (v.den = 1 ∨ roundB64 (roundTo6 v) = some (roundTo6 v)) →
      (sanitize input).length ≤ 100 → hasDivZero (sanitize input) = false →
      ∃ r : ℚ, calculate64 input = ⟨some r, none⟩ ∧ |r - v| ≤ 1 / 1000000) ∧
    calculate64Str "2 + 2 * 2" = ⟨some 6, none⟩ ∧
    calculate64Str "(2 + 3) * 4" = ⟨some 20, none⟩ := by
  refine ⟨?_, by decide, by decide⟩
  intro input v hspec hspec64 hdisp hlen hdz
  have h1 : charClassOK (sanitize input) = true := spec_charClassOK hspec
  have hout : calculate64 input = ⟨formatResult64 (some v),
      if formatResult64 (some v) = none then some .invalidExpression else none⟩ := by
    rw [calculate64_checked h1 hlen hdz, evaluateExpression64_complete hspec64]
  by_cases hden : v.den = 1
  · have hfmt : formatResult64 (some v) = some v := by simp [formatResult64, hden]
    rw [hfmt, if_neg (Option.some_ne_none _)] at hout
    exact ⟨v, hout, by norm_num⟩
  · rcases hdisp with hdisp | hdisp
    · exact absurd hdisp hden
    · have hfmt : formatResult64 (some v) = some (roundTo6 v) := by
        simp only [roundTo6] at hdisp
        simp only [formatResult64]
        rw [if_neg hden]
        exact hdisp
      rw [hfmt, if_neg (Option.some_ne_none _)] at hout
      exact ⟨roundTo6 v, hout, roundTo6_close v⟩

/-- Witness for C1 at the concrete input "2+2", where every value is
exactly representable in binary64. -/
theorem C1_witness :
    ∃ r : ℚ, calculate64 ['2', '+', '2'] = ⟨some r, none⟩ ∧
      |r - 4| ≤ 1 / 1000000 := by
  apply C1_evaluator_correct.1 ['2', '+', '2'] 4
  · show Spec .expr (['2'] ++ '+' :: ['2']) 4
    have h := Spec.add
      (Spec.eOfT (Spec.tOfF (Spec.num (NumLit.int ['2'] (by decide) (by decide)))))
      (Spec.tOfF (Spec.num (NumLit.int ['2'] (by decide) (by decide))))
    rwa [show digitsVal ['2'] + digitsVal ['2'] = (4 : ℚ) by decide] at h
  · show Spec64 .expr (['2'] ++ '+' :: ['2']) 4
    have hf : Spec64 .factor ['2'] 2 :=
      Spec64.num (NumLit.int ['2'] (by decide) (by decide)) (by decide)
    exact Spec64.add (Spec64.eOfT (Spec64.tOfF hf)) (Spec64.tOfF hf) (by decide)
  · exact Or.inl (by decide)
  · decide
  · decide

/-- C2 counterexample: an input of 101 letters has sanitized length
above 100, yet `calculate` reports `invalidExpression`, not
`tooComplex`: the character-class check runs before the length guard,
so the guard is not independent of validity. -/
theorem C2_counterexample :
    (sanitize (List.replicate 101 'a')).length > 100 ∧
    calculate (List.replicate 101 'a') = ⟨none, some CalcError.invalidExpression⟩ :=
  ⟨by decide, by decide⟩

/-- C2 (amended): for every input whose sanitized form passes the
character-class check, sanitized length above 100 fails with kind
`TooComplex`. -/
theorem C2_length_guard (input : List Char)
    (h1 : charClassOK (sanitize input) = true)
    (h2 : (sanitize input).length > 100) :
    calculate input = ⟨none, some CalcError.tooComplex⟩ := by
  simp only [calculate, h1, Bool.not_true, Bool.false_eq_true, if_false]
  rw [if_pos h2]

/-- Witness for C2 at 101 copies of the digit 1. -/
theorem C2_witness :
    calculate (List.replicate 101 '1') = ⟨none, some CalcError.tooComplex⟩ :=
  C2_length_guard _ (by decide) (by decide)

/-- C3: for every input that passes the character-class and length
checks, a slash-zero pattern in the sanitized text fails with kind
`DivisionByZero`, independent of the parser; in particular "5 / 0" and
the mathematically nonzero "7/0.0001" are both rejected this way. -/
theorem C3_divzero_precheck :
    (∀ input : List Char, charClassOK (sanitize input) = true →
      (sanitize input).length ≤ 100 → hasDivZero (sanitize input) = true →
      calculate input = ⟨none, some CalcError.divisionByZero⟩) ∧
    calculateStr "5 / 0" = ⟨none, some CalcError.divisionByZero⟩ ∧
    calculateStr "7/0.0001" = ⟨none, some CalcError.divisionByZero⟩ := by
  refine ⟨?_, by decide, by decide⟩
  intro input h1 h2 h3
  simp only [calculate, h1, Bool.not_true, Bool.false_eq_true, if_false, h3, if_true]
  rw [if_neg (by omega)]

/-- Witness for C3 at the input "5 / 0". -/
theorem C3_witness :
    calculate ['5', ' ', '/', ' ', '0'] = ⟨none, some CalcError.divisionByZero⟩ :=
  C3_divzero_precheck.1 _ (by decide) (by decide) (by decide)

/-- C4: every failure thrown during parsing or evaluation (malformed
syntax, a divisor evaluating to zero, trailing characters, exhausted
recursion budget) is caught at the `calculate` boundary and surfaces
as kind `InvalidExpression`; in particular "(1-1)*5/(3-3)", which the
textual pre-check does not flag, throws the division-by-zero failure
at evaluation time and still returns the generic error. -/
theorem C4_internal_errors :
    (∀ (input : List Char) (e : EvalErr), charClassOK (sanitize input) = true →
      (sanitize input).length ≤ 100 → hasDivZero (sanitize input) = false →
      evaluateExpression (sanitize input) = .error e →
      calculate input = ⟨none, some CalcError.invalidExpression⟩) ∧
    evaluateExpression (sanitize "(1-1)*5/(3-3)".data) = .error EvalErr.divisionByZero ∧
    calculateStr "(1-1)*5/(3-3)" = ⟨none, some CalcError.invalidExpression⟩ := by
  refine ⟨?_, by decide, by decide⟩
  intro input e h1 h2 h3 herr
  rw [calculate_checked h1 h2 h3, herr]

/-- Witness for C4 at the input "2+". -/
theorem C4_witness :
    calculate ['2', '+'] = ⟨none, some CalcError.invalidExpression⟩ :=
  C4_internal_errors.1 ['2', '+'] EvalErr.expectedNumber
    (by decide) (by decide) (by decide) (by decide)

/-- C5 counterexample: the factor rule consumes "1.2.3" whole — five
characters including two decimal points — and `parseFloat` reads the
prefix 1.2 as the nearest binary64 value
5404319552844595/4503599627370496, so `calculate` returns a numeric
result; under the claimed rule (at most one decimal point consumed)
the trailing ".3" would remain unconsumed and the evaluation would
fail with a syntax error instead. -/
theorem C5_counterexample :
    parseFactor64 10 ['1', '.', '2', '.', '3']
      = .ok (some (5404319552844595 / 4503599627370496), []) ∧
    List.count '.' ['1', '.', '2', '.', '3'] = 2 ∧
    calculate64Str "1.2.3"
      = ⟨some (5404319552844595 / 4503599627370496), none⟩ :=
  ⟨by decide, by decide, by decide⟩

/-- C5 (amended): in the factor rule, a leading parenthesis is
consumed, the expression rule runs on the rest, and a closing
parenthesis is required (else the missing-parenthesis error); any
inner failure propagates.  Otherwise the rule greedily consumes all
leading digit-or-dot characters (any number of dots), fails with the
expected-a-number error exactly when zero characters were consumed,
and otherwise interprets the consumed substring with `parseFloat`
semantics: the longest valid decimal-literal prefix, read and rounded
to the nearest binary64 value, NaN if the prefix is empty. -/
theorem C5_factor_rule :
    (∀ (fuel : Nat) (r : List Char) (v : JSNum) (r2 : List Char),
      parseExpression64 fuel r = .ok (v, r2) →
      parseFactor64 (fuel + 1) ('(' :: r) =
        (if r2.head? = some ')' then .ok (v, r2.tail) else .error .missingParen)) ∧
    (∀ (fuel : Nat) (r : List Char) (e : EvalErr),
      parseExpression64 fuel r = .error e →
      parseFactor64 (fuel + 1) ('(' :: r) = .error e) ∧
    (∀ (fuel : Nat) (s : List Char), s.head? ≠ some '(' →
      parseFactor64 (fuel + 1) s =
        (if (s.takeWhile (fun c => c.isDigit || c = '.')).isEmpty
         then .error .expectedNumber
         else .ok (parseFloatDD64 (s.takeWhile (fun c => c.isDigit || c = '.')),
           s.drop (s.takeWhile (fun c => c.isDigit || c = '.')).length))) ∧
    (∀ (s : List Char) (v : ℚ), NumLit s v → parseFloatDD64 s = roundB64 v) := by
  refine ⟨?_, ?_, ?_, fun s v h => by simp only [parseFloatDD64, parseFloatDD_of_numLit h]⟩
  · intro fuel r v r2 hp
    simp only [parseFactor64, List.head?_cons, List.tail_cons, if_true]
    rw [hp]
  · intro fuel r e hp
    simp only [parseFactor64, List.head?_cons, List.tail_cons, if_true]
    rw [hp]
  · intro fuel s hne
    simp only [parseFactor64]
    rw [if_neg hne]

/-- Witness for C5: the parenthesis branch at "(2)" and the number
branch at "+". -/
theorem C5_witness :
    parseFactor64 4 ('(' :: ['2', ')']) =
      (if ([')'] : List Char).head? = some ')'
       then Except.ok ((some 2 : JSNum), ([')'] : List Char).tail)
       else Except.error EvalErr.missingParen) ∧
    parseFactor64 3 ['+'] =
      (if ((['+'] : List Char).takeWhile (fun c => c.isDigit || c = '.')).isEmpty
       then Except.error EvalErr.expectedNumber
       else Except.ok (parseFloatDD64 ((['+'] : List Char).takeWhile
           (fun c => c.isDigit || c = '.')),
         (['+'] : List Char).drop ((['+'] : List Char).takeWhile
           (fun c => c.isDigit || c = '.')).length)) :=
  ⟨C5_factor_rule.1 3 ['2', ')'] (some 2) [')'] (by decide),
   C5_factor_rule.2.2.1 2 ['+'] (by decide)⟩

/-- C6: for inputs passing the pre-checks, a non-finite evaluation
result (NaN) yields kind `InvalidExpression`; a finite integer result
is returned unchanged; any other finite result is returned rounded to
6 decimal places (as a rational, hence with no trailing zeros), which
moves it by at most 10⁻⁶; and "0.1 + 0.2" yields exactly 3/10. -/
theorem C6_formatter :
    (∀ input : List Char, charClassOK (sanitize input) = true →
      (sanitize input).length ≤ 100 → hasDivZero (sanitize input) = false →
      ((evaluateExpression (sanitize input) = .ok none →
        calculate input = ⟨none, some CalcError.invalidExpression⟩) ∧
       (∀ q : ℚ, evaluateExpression (sanitize input) = .ok (some q) → q.den = 1 →
        calculate input = ⟨some q, none⟩) ∧
       (∀ q : ℚ, evaluateExpression (sanitize input) = .ok (some q) → q.den ≠ 1 →
        calculate input = ⟨some (roundTo6 q), none⟩ ∧
          |roundTo6 q - q| ≤ 1 / 1000000))) ∧
    calculateStr "0.1 + 0.2" = ⟨some (3 / 10), none⟩ := by
  refine ⟨?_, by decide⟩
  intro input h1 h2 h3
  refine ⟨?_, ?_, ?_⟩
  · intro hnan
    rw [calculate_checked h1 h2 h3, hnan]
    rfl
  · intro q hok hden
    rw [calculate_checked h1 h2 h3, hok]
    have hfmt : formatResult (some q) = some q := by simp [formatResult, hden]
    show (⟨formatResult (some q), if formatResult (some q) = none
      then some CalcError.invalidExpression else none⟩ : Outcome) = _
    rw [hfmt, if_neg (Option.some_ne_none _)]
  · intro q hok hden
    refine ⟨?_, roundTo6_close q⟩
    rw [calculate_checked h1 h2 h3, hok]
    have hfmt : formatResult (some q) = some (roundTo6 q) := by
      simp only [formatResult, roundTo6]
      rw [if_neg hden]
    show (⟨formatResult (some q), if formatResult (some q) = none
      then some CalcError.invalidExpression else none⟩ : Outcome) = _
    rw [hfmt, if_neg (Option.some_ne_none _)]

/-- Witness for C6: NaN from the lone-dot input "." maps to the
invalid-expression kind, and 1/3 is returned rounded. -/
theorem C6_witness :
    calculate ['.'] = ⟨none, some CalcError.invalidExpression⟩ ∧
    calculate ['1', '/', '3'] = ⟨some (roundTo6 (1 / 3)), none⟩ :=
  ⟨(C6_formatter.1 ['.'] (by decide) (by decide) (by decide)).1 (by decide),
   ((C6_formatter.1 ['1', '/', '3'] (by decide) (by decide) (by decide)).2.2
     (1 / 3) (by decide) (by decide)).1⟩

/-- C7: for inputs passing the pre-checks, if the top-level expression
rule returns leaving unconsumed characters, `evaluateExpression`
throws the unexpected-character error and `calculate` reports kind
`InvalidExpression`. -/
theorem C7_trailing :
    ∀ (input : List Char) (v : JSNum) (r : List Char),
      charClassOK (sanitize input) = true → (sanitize input).length ≤ 100 →
      hasDivZero (sanitize input) = false →
      parseExpression (evalFuel (sanitize input)) (sanitize input) = .ok (v, r) →
      r ≠ [] → calculate input = ⟨none, some CalcError.invalidExpression⟩ := by
  intro input v r h1 h2 h3 hp hr
  have hremp : r.isEmpty = false := by
    cases r with
    | nil => exact absurd rfl hr
    | cons a l => rfl
  have herr : evaluateExpression (sanitize input) = .error .unexpectedChar := by
    unfold evaluateExpression
    rw [hp]
    simp only [hremp, Bool.false_eq_true, if_false]
  rw [calculate_checked h1 h2 h3, herr]

/-- Witness for C7 at the input "1)" with its orphaned parenthesis. -/
theorem C7_witness :
    calculate ['1', ')'] = ⟨none, some CalcError.invalidExpression⟩ :=
  C7_trailing ['1', ')'] (some 1) [')']
    (by decide) (by decide) (by decide) (by decide) (by decide)

/-- C8: an input that is empty after whitespace removal, or whose
sanitized form contains any character outside the allowed class, fails
with kind `InvalidExpression`; in particular "abc" does. -/
theorem C8_charclass :
    (∀ input : List Char,
      (sanitize input = [] ∨ ∃ c ∈ sanitize input, allowedChar c = false) →
      calculate input = ⟨none, some CalcError.invalidExpression⟩) ∧
    calculateStr "abc" = ⟨none, some CalcError.invalidExpression⟩ := by
  refine ⟨?_, by decide⟩
  intro input h
  have hcc : charClassOK (sanitize input) = false := by
    rcases h with h | ⟨c, hc, hac⟩
    · simp [charClassOK, h]
    · have hna : ¬((sanitize input).all allowedChar = true) := by
        rw [List.all_eq_true]
        intro hall
        exact absurd (hall c hc) (by simp [hac])
      have hfalse : (sanitize input).all allowedChar = false := by
        cases hb : (sanitize input).all allowedChar with
        | false => rfl
        | true => exact absurd hb hna
      simp [charClassOK, hfalse]
  simp only [calculate, hcc, Bool.not_false, if_true]

/-- Witness for C8 at the input "abc". -/
theorem C8_witness :
    calculate ['a', 'b', 'c'] = ⟨none, some CalcError.invalidExpression⟩ :=
  C8_charclass.1 ['a', 'b', 'c'] (Or.inr ⟨'a', by decide, by decide⟩)

/-- C9: for every input, the outcome of `calculate` has exactly one
field populated: a numeric result with no error, or an error with no
result. -/
theorem C9_exclusive (input : List Char) :
    (∃ r : ℚ, calculate input = ⟨some r, none⟩) ∨
    (∃ e : CalcError, calculate input = ⟨none, some e⟩) := by
  simp only [calculate]
  by_cases h1 : (!charClassOK (sanitize input)) = true
  · rw [if_pos h1]
    exact Or.inr ⟨_, rfl⟩
  · rw [if_neg h1]
    by_cases h2 : (sanitize input).length > 100
    · rw [if_pos h2]
      exact Or.inr ⟨_, rfl⟩
    · rw [if_neg h2]
      by_cases h3 : hasDivZero (sanitize input) = true
      · rw [if_pos h3]
        exact Or.inr ⟨_, rfl⟩
      · rw [if_neg h3]
        cases heval : evaluateExpression (sanitize input) with
        | error e => exact Or.inr ⟨_, rfl⟩
        | ok v =>
          cases hv : formatResult v with
          | none =>
            refine Or.inr ⟨CalcError.invalidExpression, ?_⟩
            show (⟨formatResult v, if formatResult v = none
              then some CalcError.invalidExpression else none⟩ : Outcome) = _
            rw [hv]
            rfl
          | some r =>
            refine Or.inl ⟨r, ?_⟩
            show (⟨formatResult v, if formatResult v = none
              then some CalcError.invalidExpression else none⟩ : Outcome) = _
            rw [hv, if_neg (Option.some_ne_none _)]

/-- C10 counterexample: the input "/0" has a sanitized form beginning
with the operator '/', yet `calculate` returns `DivisionByZero` (the
textual pre-check fires before parsing), not `InvalidExpression` as
the claim states for every operator-initial input. -/
theorem C10_counterexample :
    (sanitize ['/', '0']).head? = some '/' ∧
    calculate ['/', '0'] = ⟨none, some CalcError.divisionByZero⟩ :=
  ⟨by decide, by decide⟩

/-- C10 (amended): for inputs passing the character-class and length
checks and free of the slash-zero pattern, a sanitized form beginning
with '+', '-', '*' or '/' is rejected with kind `InvalidExpression`
(the factor rule finds no number): signed literals and unary operators
are unsupported.  An operator-initial input caught by an earlier check
reports that check's kind instead (length gives `TooComplex`,
slash-zero gives `DivisionByZero`). -/
theorem C10_leading_operator :
    ∀ input : List Char, charClassOK (sanitize input) = true →
      (sanitize input).length ≤ 100 → hasDivZero (sanitize input) = false →
      ((sanitize input).head? = some '+' ∨ (sanitize input).head? = some '-' ∨
       (sanitize input).head? = some '*' ∨ (sanitize input).head? = some '/') →
      calculate input = ⟨none, some CalcError.invalidExpression⟩ := by
  intro input h1 h2 h3 hop
  obtain ⟨c, cs, hs⟩ : ∃ c cs, sanitize input = c :: cs := by
    cases hsn : sanitize input with
    | nil =>
      rw [hsn] at hop
      simp at hop
    | cons c cs => exact ⟨c, cs, rfl⟩
  have hcop : c = '+' ∨ c = '-' ∨ c = '*' ∨ c = '/' := by
    rw [hs] at hop
    simpa using hop
  have herr : evaluateExpression (sanitize input) = .error .expectedNumber := by
    rw [hs]
    obtain ⟨f, hf⟩ : ∃ f, evalFuel (c :: cs) = f + 3 :=
      ⟨4 * cs.length + 9, by simp only [evalFuel, List.length_cons]; omega⟩
    have hcp : ¬((c :: cs).head? = some '(') := by
      rcases hcop with rfl | rfl | rfl | rfl <;> simp
    have htake : (c :: cs).takeWhile (fun ch => ch.isDigit || ch = '.') = [] := by
      rcases hcop with rfl | rfl | rfl | rfl <;> rfl
    have h4 : parseFactor (f + 1) (c :: cs) = .error .expectedNumber := by
      simp only [parseFactor]
      rw [if_neg hcp, htake]
      rfl
    have h5 : parseTerm (f + 2) (c :: cs) = .error .expectedNumber := by
      simp only [parseTerm]
      rw [h4]
    have h6 : parseExpression (f + 3) (c :: cs) = .error .expectedNumber := by
      simp only [parseExpression]
      rw [h5]
    unfold evaluateExpression
    rw [hf, h6]
  rw [calculate_checked h1 h2 h3, herr]

/-- Witness for C10 at the input "-5". -/
theorem C10_witness :
    calculate ['-', '5'] = ⟨none, some CalcError.invalidExpression⟩ :=
  C10_leading_operator ['-', '5'] (by decide) (by decide) (by decide)
    (Or.inr (Or.inl (by decide)))

end EchoBot
